import Mathlib

/-!
Verification development for the groq-format repository.

The Rust sources are shallowly embedded:
  * `src/doc.rs`   → the `Doc` algebra, `fits_doc` and `pretty` below;
  * `src/format.rs`→ the style rules (`format_expr` and helpers);
  * `src/lib.rs`   → `format_query` / `FormatError`.

Machine strings are modelled as Lean `String`; Rust's byte length `s.len()`
is modelled by the character count `String.length` (the algorithms only
compare and subtract lengths, never index bytes). Rust's
`usize::saturating_sub` coincides with Lean's truncated `Nat` subtraction.
-/

/-- A document in Wadler's algebra (`src/doc.rs`, `enum Doc`). -/
inductive Doc where
  /-- Empty document. -/
  | Nil : Doc
  /-- Literal text. -/
  | Text : String → Doc
  /-- A potential line break: `space` in flat mode, newline in break mode. -/
  | Line : (space : String) → Doc
  /-- Increases indentation for nested content. -/
  | Nest : (indent : Nat) → Doc → Doc
  /-- Tries to fit content on one line; if it does not fit, expands lines. -/
  | Group : Doc → Doc
  /-- Concatenation of two documents. -/
  | Concat : (left : Doc) → (right : Doc) → Doc
deriving DecidableEq, Repr

namespace Doc

/-- `Doc::text`: empty strings collapse to `Nil`. -/
def text (s : String) : Doc :=
  if s.isEmpty then .Nil else .Text s

/-- `Doc::line`: a break that becomes a space in flat mode. -/
def line : Doc := .Line " "

/-- `Doc::line_or_empty`: a break that becomes empty in flat mode. -/
def line_or_empty : Doc := .Line ""

/-- `Doc::nest`. -/
def nest (indent : Nat) (doc : Doc) : Doc := .Nest indent doc

/-- `Doc::group`. -/
def group (doc : Doc) : Doc := .Group doc

/-- One step of the fold inside `Doc::concat`: `Nil` is discarded on
either side, otherwise the two documents are paired. -/
def catTwo (result doc : Doc) : Doc :=
  match result with
  | .Nil => doc
  | _ =>
    match doc with
    | .Nil => result
    | _ => .Concat result doc

/-- `Doc::concat`: left fold of `catTwo` starting from `Nil`. -/
def concat (docs : List Doc) : Doc :=
  docs.foldl catTwo .Nil

/-- `Doc::join`: interleave a separator between consecutive documents. -/
def join (sep : Doc) (docs : List Doc) : Doc :=
  match docs with
  | [] => .Nil
  | d :: rest => rest.foldl (fun result doc => concat [result, sep, doc]) d

/-- Structural size, the termination measure for the two stack loops. -/
def size : Doc → Nat
  | .Nil => 1
  | .Text _ => 1
  | .Line _ => 1
  | .Nest _ d => d.size + 1
  | .Group d => d.size + 1
  | .Concat l r => l.size + r.size + 1

theorem size_pos (d : Doc) : 0 < d.size := by
  cases d <;> simp [size]

end Doc

/-- Rendering mode (`enum Mode` in `src/doc.rs`). -/
inductive Mode where
  | Flat : Mode
  | Break : Mode
deriving DecidableEq, Repr

/-- One unit of pending render work (`struct Item` in `src/doc.rs`). -/
structure Item where
  indent : Nat
  mode : Mode
  doc : Doc
deriving Repr

/-- `fn spaces(n)`: `n` space characters. -/
def spaces (n : Nat) : String := ⟨List.replicate n ' '⟩

/-- Sum of the sizes of the documents on a fits stack. -/
def fitsMeasure (stack : List (Doc × Mode)) : Nat :=
  (stack.map fun p => p.1.size).sum

/-- The loop of `fits_doc` (`src/doc.rs` lines 183–222): a stack of
(document, mode) pairs is processed left to right against the remaining
width budget. -/
def fitsList (stack : List (Doc × Mode)) (w : Nat) : Bool :=
  match stack with
  | [] => true
  | (d, m) :: rest =>
    match d with
    | .Nil => fitsList rest w
    | .Text s =>
      if s.length > w then false
      else fitsList rest (w - s.length)
    | .Line space =>
      match m with
      | .Flat =>
        if space.length > w then false
        else fitsList rest (w - space.length)
      | .Break => fitsList rest w
    | .Nest _ d' => fitsList ((d', m) :: rest) w
    | .Concat l r => fitsList ((l, m) :: (r, m) :: rest) w
    | .Group d' => fitsList ((d', .Flat) :: rest) w
termination_by fitsMeasure stack
decreasing_by all_goals simp [fitsMeasure, Doc.size] <;> omega

/-- `fn fits_doc(width, doc, mode)`. -/
def fits_doc (width : Nat) (doc : Doc) (mode : Mode) : Bool :=
  fitsList [(doc, mode)] width

/-- Sum of the sizes of the documents on a render stack. -/
def itemsMeasure (items : List Item) : Nat :=
  (items.map fun it => it.doc.size).sum

/-- The loop of `pretty` (`src/doc.rs` lines 120–174): pop one item and
dispatch on its document variant, threading the output buffer and the
current column. -/
def prettyLoop (width : Nat) (items : List Item) (col : Nat) (out : String) :
    String :=
  match items with
  | [] => out
  | ⟨ind, m, d⟩ :: rest =>
    match d with
    | .Nil => prettyLoop width rest col out
    | .Text s => prettyLoop width rest (col + s.length) (out ++ s)
    | .Line space =>
      match m with
      | .Flat => prettyLoop width rest (col + space.length) (out ++ space)
      | .Break => prettyLoop width rest ind (out ++ "\n" ++ spaces ind)
    | .Nest i d' => prettyLoop width (⟨ind + i, m, d'⟩ :: rest) col out
    | .Concat l r =>
      prettyLoop width (⟨ind, m, l⟩ :: ⟨ind, m, r⟩ :: rest) col out
    | .Group d' =>
      if fits_doc (width - col) d' .Flat then
        prettyLoop width (⟨ind, .Flat, d'⟩ :: rest) col out
      else
        prettyLoop width (⟨ind, .Break, d'⟩ :: rest) col out
termination_by itemsMeasure items
decreasing_by all_goals simp [itemsMeasure, Doc.size] <;> omega

/-- `fn pretty(width, doc)`: seed the stack with the root at indent 0,
mode `Flat`, and run the loop. -/
def pretty (width : Nat) (doc : Doc) : String :=
  prettyLoop width [⟨0, .Flat, doc⟩] 0 ""

/-! ## Semantic helpers for the renderer and fits checker -/

namespace Doc

/-- Width cost that the fits checker charges for a document processed in a
given mode: text costs its length, a potential break costs its flat
substitute in `Flat` mode and nothing in `Break` mode, and a nested group
is always costed flat. -/
def cost : Doc → Mode → Nat
  | .Nil, _ => 0
  | .Text s, _ => s.length
  | .Line space, m =>
    match m with
    | .Flat => space.length
    | .Break => 0
  | .Nest _ d, m => cost d m
  | .Concat l r, m => cost l m + cost r m
  | .Group d, _ => cost d .Flat

/-- The fully flat rendering of a document: every potential break
collapses to its flat substitute, nested groups included. -/
def flatStr : Doc → String
  | .Nil => ""
  | .Text s => s
  | .Line space => space
  | .Nest _ d => flatStr d
  | .Group d => flatStr d
  | .Concat l r => flatStr l ++ flatStr r

end Doc

/-- A string contains no raw newline character. -/
def strNoNL (s : String) : Bool := s.data.all fun c => c != '\n'

/-- A string does not end in a newline character. -/
def strTailOk (s : String) : Bool := s.data.getLast? != some '\n'

namespace Doc

/-- Every text fragment and every flat substitute in the document is free
of raw newline characters. -/
def noNL : Doc → Bool
  | .Nil => true
  | .Text s => strNoNL s
  | .Line space => strNoNL space
  | .Nest _ d => noNL d
  | .Group d => noNL d
  | .Concat l r => noNL l && noNL r

/-- The rendering of the document is nonempty in every mode at every
column. -/
def neverEmpty : Doc → Bool
  | .Nil => false
  | .Text s => !s.isEmpty
  | .Line space => !space.isEmpty
  | .Nest _ d => neverEmpty d
  | .Group d => neverEmpty d
  | .Concat l r => neverEmpty l || neverEmpty r

/-- Syntactic condition under which the rendering never ends in a newline:
no potential break is in tail position and no text fragment ends in a
newline. -/
def tailSafe : Doc → Bool
  | .Nil => true
  | .Text s => strTailOk s
  | .Line _ => false
  | .Nest _ d => tailSafe d
  | .Group d => tailSafe d
  | .Concat l r => tailSafe r && (neverEmpty r || tailSafe l)

/-- Whether a document contains a `Group` node anywhere. -/
def hasGroup : Doc → Bool
  | .Nil => false
  | .Text _ => false
  | .Line _ => false
  | .Nest _ d => hasGroup d
  | .Group _ => true
  | .Concat l r => hasGroup l || hasGroup r

end Doc

/-- Structural (denotational) version of the render loop: the text emitted
for one document together with the column reached after it. -/
def rend (width : Nat) : Doc → Nat → Mode → Nat → String × Nat
  | .Nil, _, _, col => ("", col)
  | .Text s, _, _, col => (s, col + s.length)
  | .Line space, ind, m, col =>
    match m with
    | .Flat => (space, col + space.length)
    | .Break => ("\n" ++ spaces ind, ind)
  | .Nest i d, ind, m, col => rend width d (ind + i) m col
  | .Concat l r, ind, m, col =>
    let p := rend width l ind m col
    let q := rend width r ind m p.2
    (p.1 ++ q.1, q.2)
  | .Group d, ind, _, col =>
    if fits_doc (width - col) d .Flat then rend width d ind .Flat col
    else rend width d ind .Break col

/-- The fits checker is a pure budget comparison: it succeeds exactly when
the summed cost of the stack is within the budget. -/
theorem fitsList_eq_decide (stack : List (Doc × Mode)) (w : Nat) :
    fitsList stack w =
      decide (((stack.map fun p => p.1.cost p.2).sum) ≤ w) := by
  induction stack, w using fitsList.induct with
  | case1 w => simp [fitsList]
  | case2 w m rest ih => simpa [fitsList, Doc.cost] using ih
  | case3 w m rest s h =>
    rw [fitsList]
    have h2 : ¬(s.length + (List.map (fun p => p.1.cost p.2) rest).sum ≤ w) := by
      omega
    simp [h, Doc.cost, h2]
  | case4 w m rest s h ih =>
    rw [fitsList]
    simp only [h, if_false, ih, Doc.cost, List.map_cons, List.sum_cons,
      decide_eq_decide]
    omega
  | case5 w rest space h =>
    rw [fitsList]
    have h2 : ¬(space.length + (List.map (fun p => p.1.cost p.2) rest).sum ≤ w) := by
      omega
    simp [h, Doc.cost, h2]
  | case6 w rest space h ih =>
    rw [fitsList]
    simp only [h, if_false, ih, Doc.cost, List.map_cons, List.sum_cons,
      decide_eq_decide]
    omega
  | case7 w rest space ih => simpa [fitsList, Doc.cost] using ih
  | case8 w m rest i d ih => simpa [fitsList, Doc.cost] using ih
  | case9 w m rest l r ih =>
    rw [fitsList]
    simpa [Doc.cost, Nat.add_assoc] using ih
  | case10 w m rest d ih => simpa [fitsList, Doc.cost] using ih

/-- `fits_doc` in `Flat` mode is exactly a comparison of the flat cost
against the budget. -/
theorem fits_doc_flat (w : Nat) (d : Doc) :
    fits_doc w d .Flat = decide (d.cost .Flat ≤ w) := by
  simp [fits_doc, fitsList_eq_decide]

theorem strNoNL_append (a b : String) :
    strNoNL (a ++ b) = (strNoNL a && strNoNL b) := by
  simp [strNoNL, String.data_append]

/-- Processing one item on the render stack emits exactly `rend` of its
document and continues with the column `rend` computes. -/
theorem prettyLoop_cons (width : Nat) (d : Doc) (ind : Nat) (m : Mode)
    (rest : List Item) (col : Nat) (out : String) :
    prettyLoop width (⟨ind, m, d⟩ :: rest) col out =
      prettyLoop width rest (rend width d ind m col).2
        (out ++ (rend width d ind m col).1) := by
  induction d generalizing ind m rest col out with
  | Nil => simp [prettyLoop, rend]
  | Text s => simp [prettyLoop, rend]
  | Line space =>
    cases m <;> simp [prettyLoop, rend, String.append_assoc]
  | Nest i d ih =>
    rw [prettyLoop]
    simpa [rend] using ih (ind + i) m rest col out
  | Group d ih =>
    rw [prettyLoop]
    by_cases h : fits_doc (width - col) d .Flat <;>
      simp [h, rend, ih]
  | Concat l r ihl ihr =>
    rw [prettyLoop, ihl, ihr]
    simp [rend, String.append_assoc]

/-- The renderer equals the denotational rendering of the root document at
indent 0, mode `Flat`, column 0. -/
theorem pretty_eq_rend (width : Nat) (doc : Doc) :
    pretty width doc = (rend width doc 0 .Flat 0).1 := by
  rw [pretty, prettyLoop_cons, prettyLoop]
  simp

/-- When the flat cost of a document fits in the remaining budget, flat
rendering emits exactly the flat string and advances the column by the
flat cost; in particular every nested group's own fits check succeeds. -/
theorem rend_flat_of_fits (width : Nat) (d : Doc) (ind col : Nat)
    (h : d.cost .Flat ≤ width - col) :
    rend width d ind .Flat col = (d.flatStr, col + d.cost .Flat) := by
  induction d generalizing ind col with
  | Nil => simp [rend, Doc.flatStr, Doc.cost]
  | Text s => simp [rend, Doc.flatStr, Doc.cost]
  | Line space => simp [rend, Doc.flatStr, Doc.cost]
  | Nest i d ih =>
    rw [rend]
    exact ih (ind + i) col (by simpa [Doc.cost] using h)
  | Group d ih =>
    have hc : d.cost .Flat ≤ width - col := by simpa [Doc.cost] using h
    have hf : fits_doc (width - col) d .Flat = true := by
      rw [fits_doc_flat]
      exact decide_eq_true hc
    rw [rend]
    simp only [hf, if_true]
    simpa [Doc.flatStr, Doc.cost] using ih ind col hc
  | Concat l r ihl ihr =>
    simp only [Doc.cost] at h
    have h1 : l.cost .Flat ≤ width - col := by omega
    have h2 : r.cost .Flat ≤ width - (col + l.cost .Flat) := by omega
    rw [rend]
    simp only [ihl ind col h1, ihr ind (col + l.cost .Flat) h2]
    simp [Doc.flatStr, Doc.cost, Nat.add_assoc]

/-- The flat rendering of a newline-free document is newline-free. -/
theorem flatStr_noNL (d : Doc) (h : d.noNL = true) :
    strNoNL d.flatStr = true := by
  induction d with
  | Nil => simp [Doc.flatStr, strNoNL]
  | Text s => simpa [Doc.noNL, Doc.flatStr] using h
  | Line space => simpa [Doc.noNL, Doc.flatStr] using h
  | Nest i d ih => exact ih (by simpa [Doc.noNL] using h)
  | Group d ih => exact ih (by simpa [Doc.noNL] using h)
  | Concat l r ihl ihr =>
    simp only [Doc.noNL, Bool.and_eq_true] at h
    simp [Doc.flatStr, strNoNL_append, ihl h.1, ihr h.2]

theorem data_ne_nil_of_not_isEmpty (s : String) (h : s.isEmpty = false) :
    s.data ≠ [] := by
  intro hd
  rw [← Bool.not_eq_true, String.isEmpty_iff] at h
  exact h (String.ext (by simpa using hd))

/-- A nonempty document renders to a nonempty string in every mode. -/
theorem rend_neverEmpty (width : Nat) (d : Doc) (ind : Nat) (m : Mode)
    (col : Nat) (h : d.neverEmpty = true) :
    (rend width d ind m col).1.data ≠ [] := by
  induction d generalizing ind m col with
  | Nil => simp [Doc.neverEmpty] at h
  | Text s =>
    simp only [Doc.neverEmpty, Bool.not_eq_true'] at h
    simpa [rend] using data_ne_nil_of_not_isEmpty s h
  | Line space =>
    cases m with
    | Flat =>
      simp only [Doc.neverEmpty, Bool.not_eq_true'] at h
      simpa [rend] using data_ne_nil_of_not_isEmpty space h
    | Break => simp [rend, String.data_append]
  | Nest i d ih =>
    rw [rend]; exact ih _ _ _ (by simpa [Doc.neverEmpty] using h)
  | Group d ih =>
    rw [rend]; split <;> exact ih _ _ _ (by simpa [Doc.neverEmpty] using h)
  | Concat l r ihl ihr =>
    simp only [Doc.neverEmpty, Bool.or_eq_true] at h
    rw [rend]
    simp only [String.data_append, ne_eq, List.append_eq_nil, not_and]
    intro hl
    cases h with
    | inl h => exact absurd hl (ihl _ _ _ h)
    | inr h => exact fun _ => ihr _ _ _ h (by assumption)

/-- A tail-safe document never renders to a string ending in a newline,
in any mode, at any indent and column. -/
theorem rend_tailOk (width : Nat) (d : Doc) (ind : Nat) (m : Mode)
    (col : Nat) (h : d.tailSafe = true) :
    strTailOk (rend width d ind m col).1 = true := by
  induction d generalizing ind m col with
  | Nil => simp [rend, strTailOk]
  | Text s => simpa [Doc.tailSafe, rend] using h
  | Line space => simp [Doc.tailSafe] at h
  | Nest i d ih =>
    rw [rend]; exact ih _ _ _ (by simpa [Doc.tailSafe] using h)
  | Group d ih =>
    rw [rend]; split <;> exact ih _ _ _ (by simpa [Doc.tailSafe] using h)
  | Concat l r ihl ihr =>
    simp only [Doc.tailSafe, Bool.and_eq_true, Bool.or_eq_true] at h
    obtain ⟨hr, hor⟩ := h
    rw [rend]
    simp only [strTailOk, String.data_append, List.getLast?_append]
    cases hq : (rend width r ind m (rend width l ind m col).2).1.data.getLast? with
    | none =>
      have hqnil : (rend width r ind m (rend width l ind m col).2).1.data = [] :=
        List.getLast?_eq_none_iff.mp hq
      cases hor with
      | inl hne => exact absurd hqnil (rend_neverEmpty width r _ _ _ hne)
      | inr hl =>
        have := ihl ind m col hl
        simpa [strTailOk, Option.none_or] using this
    | some c =>
      have := ihr ind m (rend width l ind m col).2 hr
      simpa [strTailOk, hq, Option.or] using this

/-! ## The GROQ AST (external `groq_parser::ast`, reconstructed from the
fields and variants that `src/format.rs` consumes) and the style rules -/

/-- Operator tokens. Only the operators the formatter compares against are
named; every other operator is carried through its literal text (the
formatter only ever calls `.literal()` on them). -/
inductive Token where
  | And : Token
  | Or : Token
  | Colon : Token
  | Arrow : Token
  | AscOperator : Token
  | DescOperator : Token
  | Other : (lit : String) → Token
deriving DecidableEq, Repr

/-- `Token::literal()`. -/
def Token.literal : Token → String
  | .And => "&&"
  | .Or => "||"
  | .Colon => ":"
  | .Arrow => "->"
  | .AscOperator => "asc"
  | .DescOperator => "desc"
  | .Other lit => lit

/-- GROQ literal values. The float variant carries the decimal string that
Rust's `f64` `Display` implementation produces (its shortest
round-tripping form), since IEEE floating point itself is not embedded. -/
inductive Literal where
  | Str : (value : String) → Literal
  | Integer : (value : Int) → Literal
  | Float : (display : String) → Literal
  | Boolean : (value : Bool) → Literal
  | Null : Literal
deriving DecidableEq, Repr

/-- GROQ expressions. Wrapper structs of the external AST are flattened
into constructor fields: `Filter` carries `constraint.expression`,
`Slice` carries `range.value`, `Element` carries `idx.value`,
`Projection` carries `object.expressions`, and the function-call struct
(`namespace`, `name`, `arguments`) is inlined into `FunctionCall` and
`FunctionPipe`. -/
inductive Expr where
  | Everything : Expr
  | This : Expr
  | Parent : Expr
  | Lit : Literal → Expr
  | Attribute : (name : String) → Expr
  | Param : (name : String) → Expr
  | Filter : (lhs : Expr) → (constraint : Expr) → Expr
  | Slice : (lhs : Expr) → (range : Expr) → Expr
  | Element : (lhs : Expr) → (idx : Expr) → Expr
  | ArrayTraversal : (expr : Expr) → Expr
  | Dot : (lhs : Expr) → (rhs : Expr) → Expr
  | Projection : (lhs : Expr) → (object : List Expr) → Expr
  | Pipe : (lhs : Expr) → (rhs : Expr) → Expr
  | FunctionPipe : (lhs : Expr) → (ns fname : String) → (args : List Expr) → Expr
  | Binary : (operator : Token) → (lhs rhs : Expr) → Expr
  | PrefixOp : (operator : Token) → (rhs : Expr) → Expr
  | PostfixOp : (operator : Token) → (lhs : Expr) → Expr
  | FunctionCall : (ns fname : String) → (args : List Expr) → Expr
  | Array : (expressions : List Expr) → Expr
  | Object : (expressions : List Expr) → Expr
  | Group : (expression : Expr) → Expr
  | Range : (start stop : Expr) → (inclusive : Bool) → Expr
  | Ellipsis : Expr
  | Constraint : (expression : Expr) → Expr
  | Subscript : (value : Expr) → Expr
  | Tuple : (members : List Expr) → Expr

/-- Rust `char::is_control`: the Unicode Cc category, U+0000–U+001F and
U+007F–U+009F. -/
def isControl (c : Char) : Bool :=
  c.toNat < 0x20 || (0x7f ≤ c.toNat && c.toNat ≤ 0x9f)

/-- Four lower-case hex digits, as `format!("\u{:04x}")` prints for any
value below 0x10000 (control characters are all below 0xa0). -/
def hex4 (n : Nat) : String :=
  ⟨[Nat.digitChar (n / 4096 % 16), Nat.digitChar (n / 256 % 16),
    Nat.digitChar (n / 16 % 16), Nat.digitChar (n % 16)]⟩

/-- The match arms of the character loop in `escape_string`
(`src/format.rs` lines 122–134). -/
def escapeChar (c : Char) : String :=
  if c = '"' then "\\\""
  else if c = '\\' then "\\\\"
  else if c = '\n' then "\\n"
  else if c = '\r' then "\\r"
  else if c = '\t' then "\\t"
  else if isControl c then "\\u" ++ hex4 c.toNat
  else String.singleton c

/-- `fn escape_string(s)`: escape each character in order, appending to
the result buffer. -/
def escape_string (s : String) : String :=
  s.data.foldl (fun result c => result ++ escapeChar c) ""

/-- `fn format_float(value)`, applied to the `Display` rendering of the
value: append `.0` unless the rendering already shows a decimal point or
an exponent (`String.contains` is expressed on the character list so that
it computes by evaluation). -/
def format_float (s : String) : String :=
  if s.data.contains '.' || s.data.contains 'e' || s.data.contains 'E' then s
  else s ++ ".0"

/-- `fn format_literal(lit)` (`src/format.rs` lines 110–118). -/
def format_literal : Literal → Doc
  | .Str value => Doc.text ("\"" ++ escape_string value ++ "\"")
  | .Integer value => Doc.text (toString value)
  | .Float display => Doc.text (format_float display)
  | .Boolean value => Doc.text (if value then "true" else "false")
  | .Null => Doc.text "null"

/-- The guard of `format_dot`: the left side is a dereference suffix
(`if let Expr::Postfix(post) = dot.lhs && post.operator == Token::Arrow`). -/
def isArrowPostfix : Expr → Bool
  | .PostfixOp op _ => op = .Arrow
  | _ => false

/-- `fn format_expr(expr)` (`src/format.rs` lines 39–108). The mutually
recursive helpers of the source (`format_dot`, `format_binary`,
`format_prefix`, `format_postfix`, `format_function_call`,
`format_array`, `format_object`, `format_object_field`, `format_range`)
are inlined so that Lean sees a single recursion; named versions with the
source signatures are defined below and proved equal case by case. Note
`format_object_field` agrees with `format_expr` on every field shape, so
object fields recurse directly. -/
def format_expr : Expr → Doc
  | .Everything => Doc.text "*"
  | .This => Doc.text "@"
  | .Parent => Doc.text "^"
  | .Lit lit => format_literal lit
  | .Attribute name => Doc.text name
  | .Param name => Doc.text ("$" ++ name)
  | .Filter lhs constraint =>
    Doc.concat [format_expr lhs,
      Doc.group (Doc.concat [Doc.text "[", format_expr constraint]),
      Doc.text "]"]
  | .Slice lhs range =>
    Doc.concat [format_expr lhs, Doc.text "[", format_expr range,
      Doc.text "]"]
  | .Element lhs idx =>
    Doc.concat [format_expr lhs, Doc.text "[", format_expr idx,
      Doc.text "]"]
  | .ArrayTraversal e => Doc.concat [format_expr e, Doc.text "[]"]
  | .Dot lhs rhs =>
    if isArrowPostfix lhs then Doc.concat [format_expr lhs, format_expr rhs]
    else Doc.concat [format_expr lhs, Doc.text ".", format_expr rhs]
  | .Projection lhs object =>
    Doc.concat [format_expr lhs, Doc.text " ",
      if object.isEmpty then Doc.text "\x7b\x7d"
      else
        Doc.group (Doc.concat [Doc.text "\x7b",
          Doc.nest 2 (Doc.concat [Doc.line,
            Doc.join (Doc.concat [Doc.text ",", Doc.line])
              (object.attach.map fun ⟨x, _⟩ => format_expr x)]),
          Doc.line, Doc.text "\x7d"])]
  | .Pipe lhs rhs =>
    Doc.group (Doc.concat [format_expr lhs,
      Doc.nest 2 (Doc.concat [Doc.line, Doc.text "| ", format_expr rhs])])
  | .FunctionPipe lhs ns fname args =>
    Doc.group (Doc.concat [format_expr lhs,
      Doc.nest 2 (Doc.concat [Doc.line, Doc.text "| ",
        (let name := if ns.isEmpty then fname else ns ++ "::" ++ fname
         if args.isEmpty then Doc.text (name ++ "()")
         else
           Doc.group (Doc.concat [Doc.text (name ++ "("),
             Doc.nest 2 (Doc.concat [Doc.line_or_empty,
               Doc.join (Doc.concat [Doc.text ",", Doc.line])
                 (args.attach.map fun ⟨x, _⟩ => format_expr x)]),
             Doc.line_or_empty, Doc.text ")"]))])])
  | .Binary op lhs rhs =>
    if op = Token.And ∨ op = Token.Or then
      Doc.group (Doc.concat [format_expr lhs,
        Doc.nest 2 (Doc.concat [Doc.line, Doc.text (op.literal ++ " "),
          format_expr rhs])])
    else if op = Token.Colon then
      Doc.concat [format_expr lhs, Doc.text ": ", format_expr rhs]
    else
      Doc.concat [format_expr lhs, Doc.text (" " ++ op.literal ++ " "),
        format_expr rhs]
  | .PrefixOp op rhs =>
    Doc.concat [Doc.text op.literal, format_expr rhs]
  | .PostfixOp op lhs =>
    Doc.concat [format_expr lhs,
      Doc.text (if op = Token.AscOperator ∨ op = Token.DescOperator
        then " " ++ op.literal else op.literal)]
  | .FunctionCall ns fname args =>
    let name := if ns.isEmpty then fname else ns ++ "::" ++ fname
    if args.isEmpty then Doc.text (name ++ "()")
    else
      Doc.group (Doc.concat [Doc.text (name ++ "("),
        Doc.nest 2 (Doc.concat [Doc.line_or_empty,
          Doc.join (Doc.concat [Doc.text ",", Doc.line])
            (args.attach.map fun ⟨x, _⟩ => format_expr x)]),
        Doc.line_or_empty, Doc.text ")"])
  | .Array expressions =>
    if expressions.isEmpty then Doc.text "[]"
    else
      Doc.concat [Doc.text "[",
        Doc.group (Doc.nest 2 (Doc.concat [Doc.line_or_empty,
          Doc.join (Doc.concat [Doc.text ",", Doc.line])
            (expressions.attach.map fun ⟨x, _⟩ => format_expr x)])),
        Doc.text "]"]
  | .Object expressions =>
    if expressions.isEmpty then Doc.text "\x7b\x7d"
    else
      Doc.group (Doc.concat [Doc.text "\x7b",
        Doc.nest 2 (Doc.concat [Doc.line,
          Doc.join (Doc.concat [Doc.text ",", Doc.line])
            (expressions.attach.map fun ⟨x, _⟩ => format_expr x)]),
        Doc.line, Doc.text "\x7d"])
  | .Group expression =>
    Doc.concat [Doc.text "(", format_expr expression, Doc.text ")"]
  | .Range start stop inclusive =>
    Doc.concat [format_expr start,
      Doc.text (if inclusive then ".." else "..."), format_expr stop]
  | .Ellipsis => Doc.text "..."
  | .Constraint expression => format_expr expression
  | .Subscript value => format_expr value
  | .Tuple members =>
    Doc.concat [Doc.text "(",
      Doc.group (Doc.join (Doc.concat [Doc.text ",", Doc.line])
        (members.attach.map fun ⟨x, _⟩ => format_expr x)),
      Doc.text ")"]
termination_by e => sizeOf e
decreasing_by
  all_goals simp_wf
  all_goals try omega
  all_goals (rename_i hmem; have := List.sizeOf_lt_of_mem hmem; omega)

/-! ## Named versions of the recursive helpers of `src/format.rs`,
with proofs that `format_expr` computes them -/

/-- `fn format_dot(dot)` (`src/format.rs` lines 148–160). -/
def format_dot (lhs rhs : Expr) : Doc :=
  if isArrowPostfix lhs then Doc.concat [format_expr lhs, format_expr rhs]
  else Doc.concat [format_expr lhs, Doc.text ".", format_expr rhs]

/-- `fn format_binary(bin)` (`src/format.rs` lines 162–184). -/
def format_binary (op : Token) (lhs rhs : Expr) : Doc :=
  if op = Token.And ∨ op = Token.Or then
    Doc.group (Doc.concat [format_expr lhs,
      Doc.nest 2 (Doc.concat [Doc.line, Doc.text (op.literal ++ " "),
        format_expr rhs])])
  else if op = Token.Colon then
    Doc.concat [format_expr lhs, Doc.text ": ", format_expr rhs]
  else
    Doc.concat [format_expr lhs, Doc.text (" " ++ op.literal ++ " "),
      format_expr rhs]

/-- `fn format_prefix(prefix)` (`src/format.rs` lines 186–190); named with
an `_op` suffix in this development. -/
def format_prefix_op (op : Token) (rhs : Expr) : Doc :=
  Doc.concat [Doc.text op.literal, format_expr rhs]

/-- `fn format_postfix(postfix)` (`src/format.rs` lines 192–205); named
with an `_op` suffix in this development. -/
def format_postfix_op (op : Token) (lhs : Expr) : Doc :=
  Doc.concat [format_expr lhs,
    Doc.text (if op = Token.AscOperator ∨ op = Token.DescOperator
      then " " ++ op.literal else op.literal)]

/-- `fn format_function_call(func)` (`src/format.rs` lines 207–227). -/
def format_function_call (ns fname : String) (args : List Expr) : Doc :=
  let name := if ns.isEmpty then fname else ns ++ "::" ++ fname
  if args.isEmpty then Doc.text (name ++ "()")
  else
    Doc.group (Doc.concat [Doc.text (name ++ "("),
      Doc.nest 2 (Doc.concat [Doc.line_or_empty,
        Doc.join (Doc.concat [Doc.text ",", Doc.line])
          (args.map format_expr)]),
      Doc.line_or_empty, Doc.text ")"])

/-- `fn format_array(arr)` (`src/format.rs` lines 229–242). -/
def format_array (expressions : List Expr) : Doc :=
  if expressions.isEmpty then Doc.text "[]"
  else
    Doc.concat [Doc.text "[",
      Doc.group (Doc.nest 2 (Doc.concat [Doc.line_or_empty,
        Doc.join (Doc.concat [Doc.text ",", Doc.line])
          (expressions.map format_expr)])),
      Doc.text "]"]

/-- `fn format_object_field(expr)` (`src/format.rs` lines 260–271). -/
def format_object_field (expr : Expr) : Doc :=
  match expr with
  | .Binary op lhs rhs =>
    if op = Token.Colon then
      Doc.concat [format_expr lhs, Doc.text ": ", format_expr rhs]
    else format_expr expr
  | .Attribute name => Doc.text name
  | .Ellipsis => Doc.text "..."
  | _ => format_expr expr

/-- `fn format_object(obj)` (`src/format.rs` lines 244–258). -/
def format_object (expressions : List Expr) : Doc :=
  if expressions.isEmpty then Doc.text "\x7b\x7d"
  else
    Doc.group (Doc.concat [Doc.text "\x7b",
      Doc.nest 2 (Doc.concat [Doc.line,
        Doc.join (Doc.concat [Doc.text ",", Doc.line])
          (expressions.map format_object_field)]),
      Doc.line, Doc.text "\x7d"])

/-- `fn format_range(range)` (`src/format.rs` lines 273–280). -/
def format_range (start stop : Expr) (inclusive : Bool) : Doc :=
  Doc.concat [format_expr start,
    Doc.text (if inclusive then ".." else "..."), format_expr stop]

/-- `format_object_field` agrees with `format_expr` on every field shape
(each of its special cases mirrors the corresponding `format_expr` arm). -/
theorem format_object_field_eq (e : Expr) :
    format_object_field e = format_expr e := by
  cases e with
  | Binary op lhs rhs =>
    rw [format_object_field, format_expr]
    by_cases hc : op = Token.Colon
    · subst hc; simp
    · simp [hc]
  | Attribute name => rw [format_object_field, format_expr]
  | Ellipsis => rw [format_object_field, format_expr]
  | _ => rfl

theorem format_expr_dot (lhs rhs : Expr) :
    format_expr (.Dot lhs rhs) = format_dot lhs rhs := by
  rw [format_expr, format_dot]

theorem format_expr_binary (op : Token) (lhs rhs : Expr) :
    format_expr (.Binary op lhs rhs) = format_binary op lhs rhs := by
  rw [format_expr, format_binary]

theorem format_expr_prefix_op (op : Token) (rhs : Expr) :
    format_expr (.PrefixOp op rhs) = format_prefix_op op rhs := by
  rw [format_expr, format_prefix_op]

theorem format_expr_postfix_op (op : Token) (lhs : Expr) :
    format_expr (.PostfixOp op lhs) = format_postfix_op op lhs := by
  rw [format_expr, format_postfix_op]

theorem format_expr_function_call (ns fname : String) (args : List Expr) :
    format_expr (.FunctionCall ns fname args) =
      format_function_call ns fname args := by
  rw [format_expr, format_function_call]
  simp

theorem format_expr_array (expressions : List Expr) :
    format_expr (.Array expressions) = format_array expressions := by
  rw [format_expr, format_array]
  simp

theorem format_expr_object (expressions : List Expr) :
    format_expr (.Object expressions) = format_object expressions := by
  rw [format_expr, format_object]
  rw [show format_object_field = format_expr from funext format_object_field_eq]
  simp

theorem format_expr_projection (lhs : Expr) (object : List Expr) :
    format_expr (.Projection lhs object) =
      Doc.concat [format_expr lhs, Doc.text " ", format_object object] := by
  rw [format_expr, format_object]
  rw [show format_object_field = format_expr from funext format_object_field_eq]
  simp

theorem format_expr_function_pipe (lhs : Expr) (ns fname : String)
    (args : List Expr) :
    format_expr (.FunctionPipe lhs ns fname args) =
      Doc.group (Doc.concat [format_expr lhs,
        Doc.nest 2 (Doc.concat [Doc.line, Doc.text "| ",
          format_function_call ns fname args])]) := by
  rw [format_expr, format_function_call]
  simp

theorem format_expr_range (start stop : Expr) (inclusive : Bool) :
    format_expr (.Range start stop inclusive) =
      format_range start stop inclusive := by
  rw [format_expr, format_range]

theorem format_expr_tuple (members : List Expr) :
    format_expr (.Tuple members) =
      Doc.concat [Doc.text "(",
        Doc.group (Doc.join (Doc.concat [Doc.text ",", Doc.line])
          (members.map format_expr)),
        Doc.text ")"] := by
  rw [format_expr]
  simp

/-! ## Parse results, the library entry point, and well-formedness -/

/-- `groq_parser` function definitions as `src/format.rs` consumes them:
`id.namespace`, `id.name`, the parameter names, and the body. -/
structure FunctionDefinition where
  ns : String
  name : String
  parameters : List String
  body : Expr

/-- `groq_parser::ast::ParseResult`: function definitions plus the main
expression. -/
structure ParseResult where
  functions : List FunctionDefinition
  expr : Expr

/-- `fn format_function_definition(func)` (`src/format.rs` lines 22–36). -/
def format_function_definition (func : FunctionDefinition) : Doc :=
  let name := func.ns ++ "::" ++ func.name
  let params_str :=
    String.intercalate ", " (func.parameters.map fun p => "$" ++ p)
  Doc.concat [Doc.text ("fn " ++ name ++ "(" ++ params_str ++ ") = "),
    format_expr func.body, Doc.text ";"]

/-- `fn format_parse_result(result)` (`src/format.rs` lines 7–20). -/
def format_parse_result (result : ParseResult) : Doc :=
  if result.functions.isEmpty then format_expr result.expr
  else
    Doc.concat [
      Doc.join (Doc.text "\n")
        (result.functions.map format_function_definition),
      Doc.text "\n\n", format_expr result.expr]

/-- `enum FormatError` (`src/lib.rs` lines 56–62). -/
inductive FormatError where
  /-- The query string was empty. -/
  | EmptyQuery : FormatError
  /-- Failed to parse the query. -/
  | Parse : (msg : String) → FormatError
deriving DecidableEq, Repr

/-- Rust `str::trim`: drop whitespace characters from both ends. -/
def rustTrim (s : String) : String :=
  ⟨((s.data.dropWhile Char.isWhitespace).reverse.dropWhile
      Char.isWhitespace).reverse⟩

/-- `fn format_query(query, width)` (`src/lib.rs` lines 42–53). The
external parser is a function argument; the Rust code builds
`Parser::new(query)`, calls `.parse()`, and maps the error's display
string into `FormatError::Parse`. -/
def format_query (parse : String → Except String Expr) (query : String)
    (width : Nat) : Except FormatError String :=
  let query := rustTrim query
  if query.isEmpty then .error .EmptyQuery
  else
    match parse query with
    | .error e => .error (.Parse e)
    | .ok tree => .ok (pretty width (format_expr tree))

/-- `const DEFAULT_WIDTH` (`src/lib.rs`). -/
def DEFAULT_WIDTH : Nat := 80

/-- Operator tokens the parser can produce never carry a newline in their
literal text. -/
def Token.wf : Token → Bool
  | .Other lit => strNoNL lit
  | _ => true

/-- Literals as the parser produces them: a float's display string is a
decimal numeral, so it carries no newline. -/
def Literal.wf : Literal → Bool
  | .Float display => strNoNL display
  | _ => true

/-- Well-formedness of parser output assumed by the style rules:
identifier-like strings contain no newline and attribute names are
nonempty (both guaranteed by the external lexer, which never puts line
breaks inside a token). -/
def Expr.wf : Expr → Bool
  | .Everything => true
  | .This => true
  | .Parent => true
  | .Ellipsis => true
  | .Lit lit => lit.wf
  | .Attribute name => strNoNL name && !name.isEmpty
  | .Param name => strNoNL name
  | .Filter l c => l.wf && c.wf
  | .Slice l r => l.wf && r.wf
  | .Element l i => l.wf && i.wf
  | .ArrayTraversal e => e.wf
  | .Dot l r => l.wf && r.wf
  | .Projection l object => l.wf && (object.attach.all fun ⟨x, _⟩ => x.wf)
  | .Pipe l r => l.wf && r.wf
  | .FunctionPipe l ns fname args =>
    l.wf && strNoNL ns && strNoNL fname &&
      (args.attach.all fun ⟨x, _⟩ => x.wf)
  | .Binary op l r => op.wf && l.wf && r.wf
  | .PrefixOp op r => op.wf && r.wf
  | .PostfixOp op l => op.wf && l.wf
  | .FunctionCall ns fname args =>
    strNoNL ns && strNoNL fname && (args.attach.all fun ⟨x, _⟩ => x.wf)
  | .Array es => es.attach.all fun ⟨x, _⟩ => x.wf
  | .Object es => es.attach.all fun ⟨x, _⟩ => x.wf
  | .Group e => e.wf
  | .Range s e _ => s.wf && e.wf
  | .Constraint e => e.wf
  | .Subscript e => e.wf
  | .Tuple ms => ms.attach.all fun ⟨x, _⟩ => x.wf
termination_by e => sizeOf e
decreasing_by
  all_goals simp_wf
  all_goals try omega
  all_goals (rename_i hmem; have := List.sizeOf_lt_of_mem hmem; omega)

theorem attach_all_eq {α : Type} (l : List α) (f : α → Bool) :
    (l.attach.all fun x => f x.1) = l.all f := by
  rw [Bool.eq_iff_iff]
  simp only [List.all_eq_true, List.mem_attach, true_implies, Subtype.forall]

theorem Expr.wf_array (es : List Expr) :
    Expr.wf (.Array es) = es.all Expr.wf := by
  rw [Expr.wf]; exact attach_all_eq es Expr.wf

theorem Expr.wf_object (es : List Expr) :
    Expr.wf (.Object es) = es.all Expr.wf := by
  rw [Expr.wf]; exact attach_all_eq es Expr.wf

theorem Expr.wf_tuple (ms : List Expr) :
    Expr.wf (.Tuple ms) = ms.all Expr.wf := by
  rw [Expr.wf]; exact attach_all_eq ms Expr.wf

theorem Expr.wf_projection (l : Expr) (object : List Expr) :
    Expr.wf (.Projection l object) = (l.wf && object.all Expr.wf) := by
  rw [Expr.wf, attach_all_eq]

theorem Expr.wf_function_call (ns fname : String) (args : List Expr) :
    Expr.wf (.FunctionCall ns fname args) =
      (strNoNL ns && strNoNL fname && args.all Expr.wf) := by
  rw [Expr.wf, attach_all_eq]

theorem Expr.wf_function_pipe (l : Expr) (ns fname : String)
    (args : List Expr) :
    Expr.wf (.FunctionPipe l ns fname args) =
      (l.wf && strNoNL ns && strNoNL fname && args.all Expr.wf) := by
  rw [Expr.wf, attach_all_eq]

/-! ## String facts used by the style-rule invariants -/

theorem strTailOk_of_strNoNL (s : String) (h : strNoNL s = true) :
    strTailOk s = true := by
  unfold strTailOk
  cases hq : s.data.getLast? with
  | none => simp
  | some c =>
    have hmem : c ∈ s.data := by
      obtain ⟨hne, hc⟩ :=
        List.mem_getLast?_eq_getLast (Option.mem_def.mpr hq)
      exact hc ▸ List.getLast_mem hne
    unfold strNoNL at h
    rw [List.all_eq_true] at h
    simpa using h c hmem

theorem isEmpty_false_of_data_ne (s : String) (h : s.data ≠ []) :
    s.isEmpty = false := by
  rw [← Bool.not_eq_true, String.isEmpty_iff]
  intro he
  exact h (by simp [he])

theorem isEmpty_append_left (a b : String) (h : a.isEmpty = false) :
    (a ++ b).isEmpty = false := by
  apply isEmpty_false_of_data_ne
  rw [String.data_append]
  simp [List.append_eq_nil]
  intro ha
  exact absurd ha (data_ne_nil_of_not_isEmpty a h)

theorem isEmpty_append_right (a b : String) (h : b.isEmpty = false) :
    (a ++ b).isEmpty = false := by
  apply isEmpty_false_of_data_ne
  rw [String.data_append]
  simp [List.append_eq_nil]
  intro _ hb
  exact absurd hb (data_ne_nil_of_not_isEmpty b h)

/-- Digits below 16 are never a newline. -/
theorem digitChar_ne_newline (m : Nat) (h : m < 16) :
    Nat.digitChar m ≠ '\n' := by
  interval_cases m <;> decide

/-- Every character `Nat.toDigitsCore 10` produces is either carried over
from the accumulator or is a digit character of a value below 10. -/
theorem toDigitsCore_chars (fuel n : Nat) (ds : List Char) :
    ∀ c ∈ Nat.toDigitsCore 10 fuel n ds,
      c ∈ ds ∨ ∃ m, m < 10 ∧ c = Nat.digitChar m := by
  induction fuel generalizing n ds with
  | zero => intro c hc; rw [Nat.toDigitsCore] at hc; exact Or.inl hc
  | succ fuel ih =>
    intro c hc
    rw [Nat.toDigitsCore] at hc
    split at hc
    · rcases List.mem_cons.mp hc with h | h
      · exact Or.inr ⟨n % 10, Nat.mod_lt _ (by omega), h⟩
      · exact Or.inl h
    · rcases ih (n / 10) (Nat.digitChar (n % 10) :: ds) c hc with h | h
      · rcases List.mem_cons.mp h with h | h
        · exact Or.inr ⟨n % 10, Nat.mod_lt _ (by omega), h⟩
        · exact Or.inl h
      · exact Or.inr h

/-- `Nat.toDigitsCore` only ever prepends to its accumulator. -/
theorem toDigitsCore_ne_nil (fuel n : Nat) (ds : List Char) (h : ds ≠ []) :
    Nat.toDigitsCore 10 fuel n ds ≠ [] := by
  induction fuel generalizing n ds with
  | zero => rw [Nat.toDigitsCore]; exact h
  | succ fuel ih =>
    rw [Nat.toDigitsCore]
    split
    · simp
    · exact ih (n / 10) _ (by simp)

theorem natRepr_noNL (n : Nat) : strNoNL (Nat.repr n) = true := by
  unfold strNoNL
  rw [List.all_eq_true]
  intro c hc
  have hc' : c ∈ Nat.toDigits 10 n := by
    simpa [Nat.repr, List.asString] using hc
  rw [Nat.toDigits] at hc'
  rcases toDigitsCore_chars (n + 1) n [] c hc' with h | ⟨m, hm, rfl⟩
  · simp at h
  · simpa using digitChar_ne_newline m (by omega)

theorem natRepr_ne_empty (n : Nat) : (Nat.repr n).isEmpty = false := by
  apply isEmpty_false_of_data_ne
  have : (Nat.repr n).data = Nat.toDigits 10 n := by
    simp [Nat.repr, List.asString]
  rw [this, Nat.toDigits, Nat.toDigitsCore]
  split
  · simp
  · exact toDigitsCore_ne_nil n (n / 10) _ (by simp)

theorem intToString_noNL (i : Int) : strNoNL (toString i) = true := by
  show strNoNL (Int.repr i) = true
  cases i with
  | ofNat n => simpa [Int.repr] using natRepr_noNL n
  | negSucc n =>
    rw [Int.repr]
    rw [show strNoNL ("-" ++ Nat.repr (n + 1)) =
      (strNoNL "-" && strNoNL (Nat.repr (n + 1))) from strNoNL_append _ _]
    simp [natRepr_noNL]
    decide

theorem intToString_ne_empty (i : Int) : (toString i).isEmpty = false := by
  show (Int.repr i).isEmpty = false
  cases i with
  | ofNat n => simpa [Int.repr] using natRepr_ne_empty n
  | negSucc n =>
    rw [Int.repr]
    apply isEmpty_append_left
    decide

/-! ## Escaping produces no newlines -/

theorem hex4_noNL (n : Nat) : strNoNL (hex4 n) = true := by
  unfold strNoNL hex4
  simp only [List.all_cons, List.all_nil, Bool.and_eq_true, bne_iff_ne,
    ne_eq, Bool.and_true]
  refine ⟨?_, ?_, ?_, ?_⟩ <;>
    exact digitChar_ne_newline _ (Nat.mod_lt _ (by omega))

theorem escapeChar_noNL (c : Char) : strNoNL (escapeChar c) = true := by
  unfold escapeChar
  split_ifs with h1 h2 h3 h4 h5 h6
  · decide
  · decide
  · decide
  · decide
  · decide
  · rw [strNoNL_append]
    simp [hex4_noNL]
    decide
  · simp [strNoNL, String.singleton, h3]

theorem escape_string_noNL (s : String) : strNoNL (escape_string s) = true := by
  unfold escape_string
  suffices h : ∀ (l : List Char) (acc : String), strNoNL acc = true →
      strNoNL (l.foldl (fun result c => result ++ escapeChar c) acc) = true by
    exact h s.data "" (by decide)
  intro l
  induction l with
  | nil => intro acc h; exact h
  | cons c t ih =>
    intro acc h
    simp only [List.foldl_cons]
    refine ih _ ?_
    rw [strNoNL_append]
    simp [h, escapeChar_noNL]

/-! ## Predicate lemmas for the document builders -/

namespace Doc

@[simp] theorem catTwo_nil_left (d : Doc) : catTwo .Nil d = d := rfl

theorem catTwo_noNL {a b : Doc} (ha : a.noNL = true) (hb : b.noNL = true) :
    (catTwo a b).noNL = true := by
  cases a <;> cases b <;> simp_all [catTwo, noNL]

theorem catTwo_neverEmpty_left {a b : Doc} (ha : a.neverEmpty = true) :
    (catTwo a b).neverEmpty = true := by
  cases a <;> cases b <;> simp_all [catTwo, neverEmpty]

theorem catTwo_neverEmpty_right {a b : Doc} (hb : b.neverEmpty = true) :
    (catTwo a b).neverEmpty = true := by
  cases a <;> cases b <;> simp_all [catTwo, neverEmpty]

theorem catTwo_tailSafe {a b : Doc} (hb : b.tailSafe = true)
    (h : b.neverEmpty = true ∨ a.tailSafe = true) :
    (catTwo a b).tailSafe = true := by
  cases a <;> cases b <;>
    rcases h with h | h <;> simp_all [catTwo, tailSafe, neverEmpty]

theorem concat2_eq (a b : Doc) : concat [a, b] = catTwo a b := by
  simp [concat]

theorem concat3_eq (a b c : Doc) :
    concat [a, b, c] = catTwo (catTwo a b) c := by
  simp [concat]

theorem concat4_eq (a b c d : Doc) :
    concat [a, b, c, d] = catTwo (catTwo (catTwo a b) c) d := by
  simp [concat]

theorem text_noNL {s : String} (h : strNoNL s = true) :
    (text s).noNL = true := by
  unfold text; split <;> simp [noNL, h]

theorem text_neverEmpty {s : String} (h : s.isEmpty = false) :
    (text s).neverEmpty = true := by
  unfold text
  split
  · simp_all
  · simp [neverEmpty, h]

theorem text_tailSafe {s : String} (h : strNoNL s = true) :
    (text s).tailSafe = true := by
  unfold text
  split
  · simp [tailSafe]
  · simp [tailSafe, strTailOk_of_strNoNL s h]

theorem join_noNL {sep : Doc} {docs : List Doc} (hs : sep.noNL = true)
    (hd : ∀ d ∈ docs, d.noNL = true) : (join sep docs).noNL = true := by
  match docs with
  | [] => simp [join, noNL]
  | d :: rest =>
    rw [join]
    have step : ∀ (t : List Doc) (acc : Doc), acc.noNL = true →
        (∀ x ∈ t, x.noNL = true) →
        (t.foldl (fun result doc => concat [result, sep, doc]) acc).noNL
          = true := by
      intro t
      induction t with
      | nil => intro acc h _; exact h
      | cons x t ih =>
        intro acc hacc hall
        simp only [List.foldl_cons]
        refine ih _ ?_ (fun y hy => hall y (List.mem_cons_of_mem _ hy))
        rw [concat3_eq]
        exact catTwo_noNL (catTwo_noNL hacc hs)
          (hall x (List.mem_cons_self _ _))
    exact step rest d (hd d (List.mem_cons_self _ _))
      (fun y hy => hd y (List.mem_cons_of_mem _ hy))

theorem join_neverEmpty {sep : Doc} {docs : List Doc} (hne : docs ≠ [])
    (hd : ∀ d ∈ docs, d.neverEmpty = true) :
    (join sep docs).neverEmpty = true := by
  match docs with
  | [] => exact absurd rfl hne
  | d :: rest =>
    rw [join]
    have step : ∀ (t : List Doc) (acc : Doc), acc.neverEmpty = true →
        (t.foldl (fun result doc => concat [result, sep, doc]) acc).neverEmpty
          = true := by
      intro t
      induction t with
      | nil => intro acc h; exact h
      | cons x t ih =>
        intro acc hacc
        simp only [List.foldl_cons]
        refine ih _ ?_
        rw [concat3_eq]
        exact catTwo_neverEmpty_left (catTwo_neverEmpty_left hacc)
    exact step rest d (hd d (List.mem_cons_self _ _))

theorem join_tailSafe {sep : Doc} {docs : List Doc}
    (hd : ∀ d ∈ docs, d.tailSafe = true ∧ d.neverEmpty = true) :
    (join sep docs).tailSafe = true := by
  match docs with
  | [] => simp [join, tailSafe]
  | d :: rest =>
    rw [join]
    have step : ∀ (t : List Doc) (acc : Doc), acc.tailSafe = true →
        (∀ x ∈ t, x.tailSafe = true ∧ x.neverEmpty = true) →
        (t.foldl (fun result doc => concat [result, sep, doc]) acc).tailSafe
          = true := by
      intro t
      induction t with
      | nil => intro acc h _; exact h
      | cons x t ih =>
        intro acc hacc hall
        simp only [List.foldl_cons]
        refine ih _ ?_ (fun y hy => hall y (List.mem_cons_of_mem _ hy))
        rw [concat3_eq]
        exact catTwo_tailSafe (hall x (List.mem_cons_self _ _)).1
          (Or.inl (hall x (List.mem_cons_self _ _)).2)
    exact step rest d (hd d (List.mem_cons_self _ _)).1
      (fun y hy => hd y (List.mem_cons_of_mem _ hy))

end Doc

namespace Doc

theorem group_noNL {d : Doc} (h : d.noNL = true) : (group d).noNL = true := by
  simpa [group, noNL] using h

theorem group_neverEmpty {d : Doc} (h : d.neverEmpty = true) :
    (group d).neverEmpty = true := by
  simpa [group, neverEmpty] using h

theorem group_tailSafe {d : Doc} (h : d.tailSafe = true) :
    (group d).tailSafe = true := by
  simpa [group, tailSafe] using h

theorem nest_noNL {n : Nat} {d : Doc} (h : d.noNL = true) :
    (nest n d).noNL = true := by
  simpa [nest, noNL] using h

theorem nest_neverEmpty {n : Nat} {d : Doc} (h : d.neverEmpty = true) :
    (nest n d).neverEmpty = true := by
  simpa [nest, neverEmpty] using h

theorem nest_tailSafe {n : Nat} {d : Doc} (h : d.tailSafe = true) :
    (nest n d).tailSafe = true := by
  simpa [nest, tailSafe] using h

end Doc

/-- The literal text of a well-formed token has no newline. -/
theorem Token.literal_noNL {op : Token} (h : op.wf = true) :
    strNoNL op.literal = true := by
  cases op <;> first | decide | exact h

/-- Bundle of the three document invariants. -/
def docOk (d : Doc) : Prop :=
  d.noNL = true ∧ d.neverEmpty = true ∧ d.tailSafe = true

theorem format_object_props (es : List Expr)
    (hall : ∀ x ∈ es, docOk (format_expr x)) :
    docOk (format_object es) := by
  unfold format_object
  split
  · exact ⟨by decide, by decide, by decide⟩
  · rw [show format_object_field = format_expr from
      funext format_object_field_eq]
    have hj : ∀ p : Prop, p = p := fun _ => rfl
    have hmem : ∀ d ∈ es.map format_expr, docOk d := by
      intro d hd
      obtain ⟨x, hx, rfl⟩ := List.mem_map.mp hd
      exact hall x hx
    rw [Doc.concat4_eq, Doc.concat2_eq]
    refine ⟨?_, ?_, ?_⟩
    · refine Doc.group_noNL (Doc.catTwo_noNL (Doc.catTwo_noNL
        (Doc.catTwo_noNL (by decide) (Doc.nest_noNL
          (Doc.catTwo_noNL (by decide) (Doc.join_noNL (by decide)
            (fun d hd => (hmem d hd).1))))) (by decide)) (by decide))
    · exact Doc.group_neverEmpty (Doc.catTwo_neverEmpty_right (by decide))
    · exact Doc.group_tailSafe (Doc.catTwo_tailSafe (by decide)
        (Or.inl (by decide)))

theorem format_array_props (es : List Expr)
    (hall : ∀ x ∈ es, docOk (format_expr x)) :
    docOk (format_array es) := by
  unfold format_array
  split
  · exact ⟨by decide, by decide, by decide⟩
  · have hmem : ∀ d ∈ es.map format_expr, docOk d := by
      intro d hd
      obtain ⟨x, hx, rfl⟩ := List.mem_map.mp hd
      exact hall x hx
    rw [Doc.concat3_eq, Doc.concat2_eq]
    refine ⟨?_, ?_, ?_⟩
    · refine Doc.catTwo_noNL (Doc.catTwo_noNL (by decide)
        (Doc.group_noNL (Doc.nest_noNL (Doc.catTwo_noNL (by decide)
          (Doc.join_noNL (by decide) (fun d hd => (hmem d hd).1))))))
        (by decide)
    · exact Doc.catTwo_neverEmpty_right (by decide)
    · exact Doc.catTwo_tailSafe (by decide) (Or.inl (by decide))

theorem format_function_call_props (ns fname : String) (args : List Expr)
    (hns : strNoNL ns = true) (hf : strNoNL fname = true)
    (hall : ∀ x ∈ args, docOk (format_expr x)) :
    docOk (format_function_call ns fname args) := by
  unfold format_function_call
  dsimp only
  have hname : strNoNL (if ns.isEmpty then fname
      else ns ++ "::" ++ fname) = true := by
    split
    · exact hf
    · rw [strNoNL_append, strNoNL_append]
      simp [hns, hf]
      decide
  by_cases hargs : args.isEmpty = true
  · rw [if_pos hargs]
    have hnl : strNoNL ((if ns.isEmpty then fname
        else ns ++ "::" ++ fname) ++ "()") = true := by
      rw [strNoNL_append]
      simp [hname]
      decide
    exact ⟨Doc.text_noNL hnl,
      Doc.text_neverEmpty (isEmpty_append_right _ _ (by decide)),
      Doc.text_tailSafe hnl⟩
  · rw [if_neg hargs]
    have hmem : ∀ d ∈ args.map format_expr, docOk d := by
      intro d hd
      obtain ⟨x, hx, rfl⟩ := List.mem_map.mp hd
      exact hall x hx
    have hopen : strNoNL ((if ns.isEmpty then fname
        else ns ++ "::" ++ fname) ++ "(") = true := by
      rw [strNoNL_append]
      simp [hname]
      decide
    rw [Doc.concat4_eq, Doc.concat2_eq]
    refine ⟨?_, ?_, ?_⟩
    · refine Doc.group_noNL (Doc.catTwo_noNL (Doc.catTwo_noNL
        (Doc.catTwo_noNL (Doc.text_noNL hopen) (Doc.nest_noNL
          (Doc.catTwo_noNL (by decide) (Doc.join_noNL (by decide)
            (fun d hd => (hmem d hd).1))))) (by decide)) (by decide))
    · exact Doc.group_neverEmpty (Doc.catTwo_neverEmpty_right (by decide))
    · exact Doc.group_tailSafe (Doc.catTwo_tailSafe (by decide)
        (Or.inl (by decide)))

theorem format_literal_props (lit : Literal) (h : lit.wf = true) :
    docOk (format_literal lit) := by
  cases lit with
  | Str value =>
    rw [format_literal]
    have hnl : strNoNL ("\"" ++ escape_string value ++ "\"") = true := by
      rw [strNoNL_append, strNoNL_append]
      simp [escape_string_noNL]
      decide
    exact ⟨Doc.text_noNL hnl,
      Doc.text_neverEmpty (isEmpty_append_right _ _ (by decide)),
      Doc.text_tailSafe hnl⟩
  | Integer value =>
    rw [format_literal]
    exact ⟨Doc.text_noNL (intToString_noNL value),
      Doc.text_neverEmpty (intToString_ne_empty value),
      Doc.text_tailSafe (intToString_noNL value)⟩
  | Float display =>
    rw [Literal.wf] at h
    rw [format_literal]
    have hnl : strNoNL (format_float display) = true := by
      unfold format_float
      split
      · exact h
      · rw [strNoNL_append]
        simp [h]
        decide
    have hne : (format_float display).isEmpty = false := by
      by_cases hd : display = ""
      · subst hd; decide
      · unfold format_float
        split
        · rw [← Bool.not_eq_true, String.isEmpty_iff]; exact hd
        · exact isEmpty_append_right _ _ (by decide)
    exact ⟨Doc.text_noNL hnl, Doc.text_neverEmpty hne, Doc.text_tailSafe hnl⟩
  | Boolean value =>
    cases value <;> (rw [format_literal]; exact ⟨by decide, by decide, by decide⟩)
  | Null => rw [format_literal]; exact ⟨by decide, by decide, by decide⟩

/-- Every document the style rules produce from a well-formed expression
has newline-free text fragments, renders to a nonempty string, and never
ends in a newline. -/
theorem format_expr_props : ∀ (e : Expr), e.wf = true → docOk (format_expr e)
  | .Everything, _ => by rw [format_expr]; exact ⟨by decide, by decide, by decide⟩
  | .This, _ => by rw [format_expr]; exact ⟨by decide, by decide, by decide⟩
  | .Parent, _ => by rw [format_expr]; exact ⟨by decide, by decide, by decide⟩
  | .Ellipsis, _ => by
    rw [format_expr]; exact ⟨by decide, by decide, by decide⟩
  | .Lit lit, h => by
    rw [format_expr]
    exact format_literal_props lit (by rw [Expr.wf] at h; exact h)
  | .Attribute name, h => by
    rw [Expr.wf] at h
    simp only [Bool.and_eq_true, Bool.not_eq_true'] at h
    rw [format_expr]
    exact ⟨Doc.text_noNL h.1, Doc.text_neverEmpty h.2, Doc.text_tailSafe h.1⟩
  | .Param name, h => by
    rw [Expr.wf] at h
    rw [format_expr]
    have hnl : strNoNL ("$" ++ name) = true := by
      rw [strNoNL_append]
      simp [h]
      decide
    exact ⟨Doc.text_noNL hnl,
      Doc.text_neverEmpty (isEmpty_append_left _ _ (by decide)),
      Doc.text_tailSafe hnl⟩
  | .Filter l c, h => by
    rw [Expr.wf] at h
    simp only [Bool.and_eq_true] at h
    obtain ⟨il1, il2, il3⟩ := format_expr_props l h.1
    obtain ⟨ic1, ic2, ic3⟩ := format_expr_props c h.2
    rw [format_expr, Doc.concat3_eq, Doc.concat2_eq]
    exact ⟨Doc.catTwo_noNL (Doc.catTwo_noNL il1
        (Doc.group_noNL (Doc.catTwo_noNL (by decide) ic1))) (by decide),
      Doc.catTwo_neverEmpty_right (by decide),
      Doc.catTwo_tailSafe (by decide) (Or.inl (by decide))⟩
  | .Slice l r, h => by
    rw [Expr.wf] at h
    simp only [Bool.and_eq_true] at h
    obtain ⟨il1, il2, il3⟩ := format_expr_props l h.1
    obtain ⟨ir1, ir2, ir3⟩ := format_expr_props r h.2
    rw [format_expr, Doc.concat4_eq]
    exact ⟨Doc.catTwo_noNL (Doc.catTwo_noNL (Doc.catTwo_noNL il1
        (by decide)) ir1) (by decide),
      Doc.catTwo_neverEmpty_right (by decide),
      Doc.catTwo_tailSafe (by decide) (Or.inl (by decide))⟩
  | .Element l i, h => by
    rw [Expr.wf] at h
    simp only [Bool.and_eq_true] at h
    obtain ⟨il1, il2, il3⟩ := format_expr_props l h.1
    obtain ⟨ii1, ii2, ii3⟩ := format_expr_props i h.2
    rw [format_expr, Doc.concat4_eq]
    exact ⟨Doc.catTwo_noNL (Doc.catTwo_noNL (Doc.catTwo_noNL il1
        (by decide)) ii1) (by decide),
      Doc.catTwo_neverEmpty_right (by decide),
      Doc.catTwo_tailSafe (by decide) (Or.inl (by decide))⟩
  | .ArrayTraversal e, h => by
    rw [Expr.wf] at h
    obtain ⟨ie1, ie2, ie3⟩ := format_expr_props e h
    rw [format_expr, Doc.concat2_eq]
    exact ⟨Doc.catTwo_noNL ie1 (by decide),
      Doc.catTwo_neverEmpty_right (by decide),
      Doc.catTwo_tailSafe (by decide) (Or.inl (by decide))⟩
  | .Dot l r, h => by
    rw [Expr.wf] at h
    simp only [Bool.and_eq_true] at h
    obtain ⟨il1, il2, il3⟩ := format_expr_props l h.1
    obtain ⟨ir1, ir2, ir3⟩ := format_expr_props r h.2
    rw [format_expr]
    split
    · rw [Doc.concat2_eq]
      exact ⟨Doc.catTwo_noNL il1 ir1,
        Doc.catTwo_neverEmpty_right ir2,
        Doc.catTwo_tailSafe ir3 (Or.inl ir2)⟩
    · rw [Doc.concat3_eq]
      exact ⟨Doc.catTwo_noNL (Doc.catTwo_noNL il1 (by decide)) ir1,
        Doc.catTwo_neverEmpty_right ir2,
        Doc.catTwo_tailSafe ir3 (Or.inl ir2)⟩
  | .Projection l object, h => by
    rw [Expr.wf_projection] at h
    simp only [Bool.and_eq_true] at h
    obtain ⟨il1, il2, il3⟩ := format_expr_props l h.1
    have hall : ∀ x ∈ object, docOk (format_expr x) := fun x hx =>
      format_expr_props x (by
        have := h.2
        rw [List.all_eq_true] at this
        exact this x hx)
    obtain ⟨io1, io2, io3⟩ := format_object_props object hall
    rw [format_expr_projection, Doc.concat3_eq]
    exact ⟨Doc.catTwo_noNL (Doc.catTwo_noNL il1 (by decide)) io1,
      Doc.catTwo_neverEmpty_right io2,
      Doc.catTwo_tailSafe io3 (Or.inl io2)⟩
  | .Pipe l r, h => by
    rw [Expr.wf] at h
    simp only [Bool.and_eq_true] at h
    obtain ⟨il1, il2, il3⟩ := format_expr_props l h.1
    obtain ⟨ir1, ir2, ir3⟩ := format_expr_props r h.2
    rw [format_expr, Doc.concat2_eq, Doc.concat3_eq]
    exact ⟨Doc.group_noNL (Doc.catTwo_noNL il1 (Doc.nest_noNL
        (Doc.catTwo_noNL (Doc.catTwo_noNL (by decide) (by decide)) ir1))),
      Doc.group_neverEmpty (Doc.catTwo_neverEmpty_left il2),
      Doc.group_tailSafe (Doc.catTwo_tailSafe
        (Doc.nest_tailSafe (Doc.catTwo_tailSafe ir3 (Or.inl ir2)))
        (Or.inl (Doc.nest_neverEmpty (Doc.catTwo_neverEmpty_right ir2))))⟩
  | .FunctionPipe l ns fname args, h => by
    rw [Expr.wf_function_pipe] at h
    simp only [Bool.and_eq_true] at h
    obtain ⟨⟨⟨hl, hns⟩, hf⟩, hargs⟩ := h
    obtain ⟨il1, il2, il3⟩ := format_expr_props l hl
    have hall : ∀ x ∈ args, docOk (format_expr x) := fun x hx =>
      format_expr_props x (by
        rw [List.all_eq_true] at hargs
        exact hargs x hx)
    obtain ⟨ic1, ic2, ic3⟩ := format_function_call_props ns fname args hns hf hall
    rw [format_expr_function_pipe, Doc.concat2_eq, Doc.concat3_eq]
    exact ⟨Doc.group_noNL (Doc.catTwo_noNL il1 (Doc.nest_noNL
        (Doc.catTwo_noNL (Doc.catTwo_noNL (by decide) (by decide)) ic1))),
      Doc.group_neverEmpty (Doc.catTwo_neverEmpty_left il2),
      Doc.group_tailSafe (Doc.catTwo_tailSafe
        (Doc.nest_tailSafe (Doc.catTwo_tailSafe ic3 (Or.inl ic2)))
        (Or.inl (Doc.nest_neverEmpty (Doc.catTwo_neverEmpty_right ic2))))⟩
  | .Binary op l r, h => by
    rw [Expr.wf] at h
    simp only [Bool.and_eq_true] at h
    obtain ⟨⟨hop, hl⟩, hr⟩ := h
    obtain ⟨il1, il2, il3⟩ := format_expr_props l hl
    obtain ⟨ir1, ir2, ir3⟩ := format_expr_props r hr
    have hlit := Token.literal_noNL hop
    rw [format_expr]
    split
    · rw [Doc.concat2_eq, Doc.concat3_eq]
      have hsp : strNoNL (op.literal ++ " ") = true := by
        rw [strNoNL_append]
        simp [hlit]
        decide
      exact ⟨Doc.group_noNL (Doc.catTwo_noNL il1 (Doc.nest_noNL
          (Doc.catTwo_noNL (Doc.catTwo_noNL (by decide)
            (Doc.text_noNL hsp)) ir1))),
        Doc.group_neverEmpty (Doc.catTwo_neverEmpty_left il2),
        Doc.group_tailSafe (Doc.catTwo_tailSafe
          (Doc.nest_tailSafe (Doc.catTwo_tailSafe ir3 (Or.inl ir2)))
          (Or.inl (Doc.nest_neverEmpty (Doc.catTwo_neverEmpty_right ir2))))⟩
    · split
      · rw [Doc.concat3_eq]
        exact ⟨Doc.catTwo_noNL (Doc.catTwo_noNL il1 (by decide)) ir1,
          Doc.catTwo_neverEmpty_right ir2,
          Doc.catTwo_tailSafe ir3 (Or.inl ir2)⟩
      · rw [Doc.concat3_eq]
        have hsp : strNoNL (" " ++ op.literal ++ " ") = true := by
          rw [strNoNL_append, strNoNL_append]
          simp [hlit]
          decide
        exact ⟨Doc.catTwo_noNL (Doc.catTwo_noNL il1
            (Doc.text_noNL hsp)) ir1,
          Doc.catTwo_neverEmpty_right ir2,
          Doc.catTwo_tailSafe ir3 (Or.inl ir2)⟩
  | .PrefixOp op r, h => by
    rw [Expr.wf] at h
    simp only [Bool.and_eq_true] at h
    obtain ⟨ir1, ir2, ir3⟩ := format_expr_props r h.2
    rw [format_expr, Doc.concat2_eq]
    exact ⟨Doc.catTwo_noNL (Doc.text_noNL (Token.literal_noNL h.1)) ir1,
      Doc.catTwo_neverEmpty_right ir2,
      Doc.catTwo_tailSafe ir3 (Or.inl ir2)⟩
  | .PostfixOp op l, h => by
    rw [Expr.wf] at h
    simp only [Bool.and_eq_true] at h
    obtain ⟨il1, il2, il3⟩ := format_expr_props l h.2
    have hlit := Token.literal_noNL h.1
    rw [format_expr, Doc.concat2_eq]
    have hop : strNoNL (if op = Token.AscOperator ∨ op = Token.DescOperator
        then " " ++ op.literal else op.literal) = true := by
      split
      · rw [strNoNL_append]
        simp [hlit]
        decide
      · exact hlit
    exact ⟨Doc.catTwo_noNL il1 (Doc.text_noNL hop),
      Doc.catTwo_neverEmpty_left il2,
      Doc.catTwo_tailSafe (Doc.text_tailSafe hop) (Or.inr il3)⟩
  | .FunctionCall ns fname args, h => by
    rw [Expr.wf_function_call] at h
    simp only [Bool.and_eq_true] at h
    obtain ⟨⟨hns, hf⟩, hargs⟩ := h
    have hall : ∀ x ∈ args, docOk (format_expr x) := fun x hx =>
      format_expr_props x (by
        rw [List.all_eq_true] at hargs
        exact hargs x hx)
    rw [format_expr_function_call]
    exact format_function_call_props ns fname args hns hf hall
  | .Array es, h => by
    rw [Expr.wf_array] at h
    have hall : ∀ x ∈ es, docOk (format_expr x) := fun x hx =>
      format_expr_props x (by
        rw [List.all_eq_true] at h
        exact h x hx)
    rw [format_expr_array]
    exact format_array_props es hall
  | .Object es, h => by
    rw [Expr.wf_object] at h
    have hall : ∀ x ∈ es, docOk (format_expr x) := fun x hx =>
      format_expr_props x (by
        rw [List.all_eq_true] at h
        exact h x hx)
    rw [format_expr_object]
    exact format_object_props es hall
  | .Group e, h => by
    rw [Expr.wf] at h
    obtain ⟨ie1, ie2, ie3⟩ := format_expr_props e h
    rw [format_expr, Doc.concat3_eq]
    exact ⟨Doc.catTwo_noNL (Doc.catTwo_noNL (by decide) ie1) (by decide),
      Doc.catTwo_neverEmpty_right (by decide),
      Doc.catTwo_tailSafe (by decide) (Or.inl (by decide))⟩
  | .Range s e inclusive, h => by
    rw [Expr.wf] at h
    simp only [Bool.and_eq_true] at h
    obtain ⟨is1, is2, is3⟩ := format_expr_props s h.1
    obtain ⟨ie1, ie2, ie3⟩ := format_expr_props e h.2
    rw [format_expr, Doc.concat3_eq]
    have hop : strNoNL (if inclusive then ".." else "...") = true := by
      cases inclusive <;> decide
    exact ⟨Doc.catTwo_noNL (Doc.catTwo_noNL is1 (Doc.text_noNL hop)) ie1,
      Doc.catTwo_neverEmpty_right ie2,
      Doc.catTwo_tailSafe ie3 (Or.inl ie2)⟩
  | .Constraint e, h => by
    rw [format_expr]
    exact format_expr_props e (by rw [Expr.wf] at h; exact h)
  | .Subscript e, h => by
    rw [format_expr]
    exact format_expr_props e (by rw [Expr.wf] at h; exact h)
  | .Tuple ms, h => by
    rw [Expr.wf_tuple] at h
    have hall : ∀ x ∈ ms, docOk (format_expr x) := fun x hx =>
      format_expr_props x (by
        rw [List.all_eq_true] at h
        exact h x hx)
    have hmem : ∀ d ∈ ms.map format_expr, docOk d := by
      intro d hd
      obtain ⟨x, hx, rfl⟩ := List.mem_map.mp hd
      exact hall x hx
    rw [format_expr_tuple, Doc.concat3_eq]
    exact ⟨Doc.catTwo_noNL (Doc.catTwo_noNL (by decide)
        (Doc.group_noNL (Doc.join_noNL (by decide)
          (fun d hd => (hmem d hd).1)))) (by decide),
      Doc.catTwo_neverEmpty_right (by decide),
      Doc.catTwo_tailSafe (by decide) (Or.inl (by decide))⟩
termination_by e => sizeOf e
decreasing_by
  all_goals simp_wf
  all_goals try omega
  all_goals (have hlt := List.sizeOf_lt_of_mem hx; omega)

/-! ## Reading escape sequences back (for the round-trip property) -/

/-- Value of one lower-case hex digit. -/
def hexVal (c : Char) : Option Nat :=
  if '0' ≤ c ∧ c ≤ '9' then some (c.toNat - '0'.toNat)
  else if 'a' ≤ c ∧ c ≤ 'f' then some (c.toNat - 'a'.toNat + 10)
  else none

/-- Modelled from the spec: the "standard parser reading the escapes
back" (the parser itself is an external collaborator). It understands
exactly the escape sequences of the string grammar `escape_string`
targets: `\"`, `\\`, `\n`, `\r`, `\t`, and `\u` with four hex digits;
everything else is read verbatim, and a stray backslash is an error. -/
def unescapeList : List Char → Option (List Char)
  | [] => some []
  | '\\' :: rest =>
    match rest with
    | '"' :: t => (unescapeList t).map (fun l => '"' :: l)
    | '\\' :: t => (unescapeList t).map (fun l => '\\' :: l)
    | 'n' :: t => (unescapeList t).map (fun l => '\n' :: l)
    | 'r' :: t => (unescapeList t).map (fun l => '\r' :: l)
    | 't' :: t => (unescapeList t).map (fun l => '\t' :: l)
    | 'u' :: c1 :: c2 :: c3 :: c4 :: t =>
      match hexVal c1, hexVal c2, hexVal c3, hexVal c4 with
      | some a, some b, some c, some d =>
        (unescapeList t).map (fun l =>
          Char.ofNat (a * 4096 + b * 256 + c * 16 + d) :: l)
      | _, _, _, _ => none
    | _ => none
  | c :: rest => (unescapeList rest).map (fun l => c :: l)

theorem hexVal_digitChar (m : Nat) (h : m < 16) :
    hexVal (Nat.digitChar m) = some m := by
  interval_cases m <;> decide

theorem unescapeList_cons_plain (c : Char) (h : c ≠ '\\') (t : List Char) :
    unescapeList (c :: t) = (unescapeList t).map (fun l => c :: l) := by
  rw [unescapeList.eq_def]
  split
  · rename_i heq; cases heq
  · rename_i heq; injection heq with h1 h2; exact absurd h1 h
  · rename_i c' t' heq; injection heq with h1 h2; subst h1; subst h2; rfl

/-- Reading back the escape of one character prepends exactly that
character. -/
theorem unescape_escapeChar (c : Char) (t : List Char) :
    unescapeList ((escapeChar c).data ++ t) =
      (unescapeList t).map (fun l => c :: l) := by
  unfold escapeChar
  by_cases h1 : c = '"'
  · subst h1; rw [if_pos rfl]; rfl
  rw [if_neg h1]
  by_cases h2 : c = '\\'
  · subst h2; rw [if_pos rfl]; rfl
  rw [if_neg h2]
  by_cases h3 : c = '\n'
  · subst h3; rw [if_pos rfl]; rfl
  rw [if_neg h3]
  by_cases h4 : c = '\r'
  · subst h4; rw [if_pos rfl]; rfl
  rw [if_neg h4]
  by_cases h5 : c = '\t'
  · subst h5; rw [if_pos rfl]; rfl
  rw [if_neg h5]
  by_cases h6 : isControl c = true
  · rw [if_pos h6]
    have hlow : c.toNat < 65536 := by
      unfold isControl at h6
      simp only [Bool.or_eq_true, Bool.and_eq_true, decide_eq_true_eq] at h6
      omega
    rw [String.data_append]
    show unescapeList ('\\' :: 'u' :: _ ++ t) = _
    rw [hex4]
    show unescapeList
      ('\\' :: 'u' :: Nat.digitChar (c.toNat / 4096 % 16) ::
        Nat.digitChar (c.toNat / 256 % 16) ::
        Nat.digitChar (c.toNat / 16 % 16) ::
        Nat.digitChar (c.toNat % 16) :: t) = _
    rw [unescapeList]
    rw [hexVal_digitChar _ (Nat.mod_lt _ (by omega)),
      hexVal_digitChar _ (Nat.mod_lt _ (by omega)),
      hexVal_digitChar _ (Nat.mod_lt _ (by omega)),
      hexVal_digitChar _ (Nat.mod_lt _ (by omega))]
    dsimp only
    have hcomb : c.toNat / 4096 % 16 * 4096 + c.toNat / 256 % 16 * 256 +
        c.toNat / 16 % 16 * 16 + c.toNat % 16 = c.toNat := by
      omega
    rw [hcomb, Char.ofNat_toNat]
  · rw [if_neg h6]
    show unescapeList (c :: t) = _
    exact unescapeList_cons_plain c h2 t

theorem unescape_join (l : List Char) :
    unescapeList ((l.map fun c => (escapeChar c).data).flatten) = some l := by
  induction l with
  | nil => rfl
  | cons c t ih =>
    rw [List.map_cons, List.flatten_cons, unescape_escapeChar, ih]
    rfl

theorem escape_string_data (s : String) :
    (escape_string s).data =
      (s.data.map fun c => (escapeChar c).data).flatten := by
  unfold escape_string
  suffices h : ∀ (l : List Char) (acc : String),
      (l.foldl (fun r c => r ++ escapeChar c) acc).data =
        acc.data ++ (l.map fun c => (escapeChar c).data).flatten by
    simpa using h s.data ""
  intro l
  induction l with
  | nil => intro acc; simp
  | cons c t ih =>
    intro acc
    simp only [List.foldl_cons, List.map_cons, List.flatten_cons, ih,
      String.data_append, List.append_assoc]

/-- Reading an escaped string back recovers the original string. -/
theorem unescape_escape_string (s : String) :
    unescapeList (escape_string s).data = some s.data := by
  rw [escape_string_data]
  exact unescape_join s.data

/-! ## Claim theorems -/

/-- C1: Local flattening inside broken contexts. Whatever mode `m` the
enclosing context has — in particular `Break`, after the renderer decided
to break an enclosing Group — a nested `Group d` whose flat rendering
fits in the width remaining at its start column (`width - col`) is
rendered flat: the renderer emits exactly the flat string of `d` (which
contains no newline when the document's fragments are newline-free) and
advances the column by its flat length. Breaking an outer Group never
forces an inner Group to break. -/
theorem group_local_flattening (width ind col : Nat) (m : Mode) (d : Doc)
    (rest : List Item) (out : String)
    (hfits : fits_doc (width - col) d .Flat = true) :
    prettyLoop width (⟨ind, m, .Group d⟩ :: rest) col out =
      prettyLoop width rest (col + d.cost .Flat) (out ++ d.flatStr) ∧
    (d.noNL = true → strNoNL d.flatStr = true) := by
  refine ⟨?_, fun h => flatStr_noNL d h⟩
  rw [prettyLoop, if_pos hfits, prettyLoop_cons]
  have hc : d.cost .Flat ≤ width - col := by
    rw [fits_doc_flat] at hfits
    exact of_decide_eq_true hfits
  rw [rend_flat_of_fits width d ind col hc]

theorem group_local_flattening_witness :
    (prettyLoop 10 [⟨0, Mode.Break, Doc.Group (Doc.Text "ab")⟩] 0 "" =
      prettyLoop 10 [] (0 + (Doc.Text "ab").cost Mode.Flat)
        ("" ++ (Doc.Text "ab").flatStr)) ∧
    ((Doc.Text "ab").noNL = true → strNoNL (Doc.Text "ab").flatStr = true) :=
  group_local_flattening 10 0 0 .Break (.Text "ab") [] ""
    (by rw [fits_doc_flat]; decide)

/-- C2: the renderer's Group decision. Reaching a `Group d` at column
`col` with width `width`, in any mode and with any pending work, the
renderer computes the budget `width - col` (truncated ℕ subtraction, i.e.
floored at zero), runs the fits checker on the child with that budget in
`Flat` mode, and pushes the child once — in `Flat` mode exactly when the
check succeeds, in `Break` mode otherwise; the rest of the rendering is
whatever the loop does from that single pushed item. -/
theorem group_decision (width ind col : Nat) (m : Mode) (d : Doc)
    (rest : List Item) (out : String) :
    prettyLoop width (⟨ind, m, .Group d⟩ :: rest) col out =
      (if fits_doc (width - col) d .Flat then
        prettyLoop width (⟨ind, .Flat, d⟩ :: rest) col out
      else
        prettyLoop width (⟨ind, .Break, d⟩ :: rest) col out) ∧
    (∀ m' : Mode,
      prettyLoop width (⟨ind, m, .Group d⟩ :: rest) col out =
        prettyLoop width (⟨ind, m', .Group d⟩ :: rest) col out) := by
  constructor
  · rw [prettyLoop]
  · intro m'
    rw [prettyLoop]
    conv_rhs => rw [prettyLoop]

/-- C3: the fits checker's one-step semantics, covering every stack
shape: success on the empty stack, short-circuit failure when a text (or,
in `Flat` mode, a flat substitute) exceeds the budget and deduction
otherwise, no deduction for a break in `Break` mode, mode-independent
`Flat` tagging of Group children, and the left-to-right order of
concatenation. -/
theorem fits_checker_semantics :
    (∀ w, fitsList [] w = true) ∧
    (∀ w (m : Mode) (rest : List (Doc × Mode)),
      fitsList ((Doc.Nil, m) :: rest) w = fitsList rest w) ∧
    (∀ w (m : Mode) (s : String) (rest : List (Doc × Mode)),
      fitsList ((Doc.Text s, m) :: rest) w =
        if s.length > w then false else fitsList rest (w - s.length)) ∧
    (∀ w (space : String) (rest : List (Doc × Mode)),
      fitsList ((Doc.Line space, Mode.Flat) :: rest) w =
        if space.length > w then false
        else fitsList rest (w - space.length)) ∧
    (∀ w (space : String) (rest : List (Doc × Mode)),
      fitsList ((Doc.Line space, Mode.Break) :: rest) w = fitsList rest w) ∧
    (∀ w (m : Mode) (i : Nat) (d : Doc) (rest : List (Doc × Mode)),
      fitsList ((Doc.Nest i d, m) :: rest) w = fitsList ((d, m) :: rest) w) ∧
    (∀ w (m : Mode) (l r : Doc) (rest : List (Doc × Mode)),
      fitsList ((Doc.Concat l r, m) :: rest) w =
        fitsList ((l, m) :: (r, m) :: rest) w) ∧
    (∀ w (m : Mode) (d : Doc) (rest : List (Doc × Mode)),
      fitsList ((Doc.Group d, m) :: rest) w =
        fitsList ((d, Mode.Flat) :: rest) w) ∧
    (∀ w (d : Doc) (m : Mode), fits_doc w d m = fitsList [(d, m)] w) := by
  refine ⟨fun w => ?_, fun w m rest => ?_, fun w m s rest => ?_,
    fun w space rest => ?_, fun w space rest => ?_, fun w m i d rest => ?_,
    fun w m l r rest => ?_, fun w m d rest => ?_, fun w d m => rfl⟩
  · rw [fitsList]
  · rw [fitsList]
  · rw [fitsList]
  · rw [fitsList]
  · rw [fitsList]
  · rw [fitsList]
  · rw [fitsList]
  · rw [fitsList]

/-- C4 counterexample: the Style Rules layer includes
`format_parse_result`, and with one function definition present it emits
the literal text fragment `"\n\n"` (and joins several definitions with
literal `"\n"` texts), so not every text fragment it produces is
newline-free. -/
theorem style_rules_newline_counterexample :
    (format_parse_result ⟨[⟨"a", "b", [], Expr.Everything⟩],
        Expr.Everything⟩).noNL = false := by
  have he : format_expr Expr.Everything = Doc.text "*" := by rw [format_expr]
  simp only [format_parse_result, List.map_cons, List.map_nil,
    format_function_definition, he]
  decide

/-- C4 (amended): every literal-text fragment in a document produced by
`format_expr` (and its helpers) from a well-formed expression contains no
raw newline; `format_parse_result` additionally inserts literal newline
separator texts when function definitions are present. -/
theorem format_expr_texts_no_newline (e : Expr) (h : e.wf = true) :
    (format_expr e).noNL = true :=
  (format_expr_props e h).1

theorem format_expr_texts_no_newline_witness :
    (format_expr (Expr.Attribute "title")).noNL = true :=
  format_expr_texts_no_newline (Expr.Attribute "title")
    (by rw [Expr.wf]; decide)

/-- C5 counterexample: the element-index form renders with no Group node
at all — `*[0]` as a plain concatenation — so the index is not contained
in a bracketed Group. -/
theorem bracket_suffix_group_counterexample :
    (format_expr (Expr.Element Expr.Everything
      (Expr.Lit (Literal.Integer 0)))).hasGroup = false := by
  rw [format_expr]
  rw [show format_expr Expr.Everything = Doc.text "*" from by rw [format_expr]]
  rw [show format_expr (Expr.Lit (Literal.Integer 0)) =
    format_literal (Literal.Integer 0) from by rw [format_expr]]
  decide

theorem Doc.catTwo_eq_concat {a b : Doc} (ha : a ≠ .Nil) (hb : b ≠ .Nil) :
    Doc.catTwo a b = .Concat a b := by
  cases a <;> cases b <;> simp_all [Doc.catTwo]

/-- C5 (amended): filters, element indexing, slices and array traversal
all render the left operand immediately followed by the opening bracket
with no space, but only the Filter form wraps `[` and its constraint in a
Group (with the closing bracket outside); Slice and Element are plain
concatenations with no Group, and ArrayTraversal appends the literal
`[]`. -/
theorem bracket_suffix_forms (lhs c r i a : Expr)
    (hl : format_expr lhs ≠ .Nil) (hc : format_expr c ≠ .Nil)
    (hr : format_expr r ≠ .Nil) (hi : format_expr i ≠ .Nil)
    (ha : format_expr a ≠ .Nil) :
    format_expr (Expr.Filter lhs c) =
      .Concat (.Concat (format_expr lhs)
        (.Group (.Concat (.Text "[") (format_expr c)))) (.Text "]") ∧
    format_expr (Expr.Element lhs i) =
      .Concat (.Concat (.Concat (format_expr lhs) (.Text "["))
        (format_expr i)) (.Text "]") ∧
    format_expr (Expr.Slice lhs r) =
      .Concat (.Concat (.Concat (format_expr lhs) (.Text "["))
        (format_expr r)) (.Text "]") ∧
    format_expr (Expr.ArrayTraversal a) =
      .Concat (format_expr a) (.Text "[]") := by
  refine ⟨?_, ?_, ?_, ?_⟩
  · rw [format_expr, Doc.concat3_eq, Doc.concat2_eq]
    simp only [Doc.group]
    rw [show Doc.text "[" = Doc.Text "[" from by decide,
        show Doc.text "]" = Doc.Text "]" from by decide]
    rw [Doc.catTwo_eq_concat (show Doc.Text "[" ≠ .Nil from by decide) hc]
    rw [Doc.catTwo_eq_concat hl (show Doc.Group _ ≠ .Nil from by simp)]
    rw [Doc.catTwo_eq_concat (show Doc.Concat _ _ ≠ .Nil from by simp)
      (show Doc.Text "]" ≠ .Nil from by decide)]
  · rw [format_expr, Doc.concat4_eq]
    rw [show Doc.text "[" = Doc.Text "[" from by decide,
        show Doc.text "]" = Doc.Text "]" from by decide]
    rw [Doc.catTwo_eq_concat hl (show Doc.Text "[" ≠ .Nil from by decide)]
    rw [Doc.catTwo_eq_concat (show Doc.Concat _ _ ≠ .Nil from by simp) hi]
    rw [Doc.catTwo_eq_concat (show Doc.Concat _ _ ≠ .Nil from by simp)
      (show Doc.Text "]" ≠ .Nil from by decide)]
  · rw [format_expr, Doc.concat4_eq]
    rw [show Doc.text "[" = Doc.Text "[" from by decide,
        show Doc.text "]" = Doc.Text "]" from by decide]
    rw [Doc.catTwo_eq_concat hl (show Doc.Text "[" ≠ .Nil from by decide)]
    rw [Doc.catTwo_eq_concat (show Doc.Concat _ _ ≠ .Nil from by simp) hr]
    rw [Doc.catTwo_eq_concat (show Doc.Concat _ _ ≠ .Nil from by simp)
      (show Doc.Text "]" ≠ .Nil from by decide)]
  · rw [format_expr, Doc.concat2_eq]
    rw [show Doc.text "[]" = Doc.Text "[]" from by decide]
    rw [Doc.catTwo_eq_concat ha (show Doc.Text "[]" ≠ .Nil from by decide)]

theorem bracket_suffix_forms_witness :
    format_expr (Expr.Filter Expr.Everything Expr.Everything) =
      .Concat (.Concat (format_expr Expr.Everything)
        (.Group (.Concat (.Text "[") (format_expr Expr.Everything))))
        (.Text "]") ∧
    format_expr (Expr.Element Expr.Everything Expr.Everything) =
      .Concat (.Concat (.Concat (format_expr Expr.Everything) (.Text "["))
        (format_expr Expr.Everything)) (.Text "]") ∧
    format_expr (Expr.Slice Expr.Everything Expr.Everything) =
      .Concat (.Concat (.Concat (format_expr Expr.Everything) (.Text "["))
        (format_expr Expr.Everything)) (.Text "]") ∧
    format_expr (Expr.ArrayTraversal Expr.Everything) =
      .Concat (format_expr Expr.Everything) (.Text "[]") :=
  bracket_suffix_forms Expr.Everything Expr.Everything Expr.Everything
    Expr.Everything Expr.Everything
    (by rw [format_expr]; decide) (by rw [format_expr]; decide)
    (by rw [format_expr]; decide) (by rw [format_expr]; decide)
    (by rw [format_expr]; decide)

/-- C6: empty collections render canonically. An empty array expression
always renders as the two characters `[]`, an empty object as the two
characters `{}`, at every width; and in any surrounding render context —
any indent, any mode (in particular `Break`, inside a broken enclosing
structure), any pending work — they emit exactly those two characters
with no internal whitespace or line break. -/
theorem empty_collections_canonical :
    (∀ w, pretty w (format_expr (Expr.Array [])) = "[]") ∧
    (∀ w, pretty w (format_expr (Expr.Object [])) = "\x7b\x7d") ∧
    (∀ width ind (m : Mode) (rest : List Item) col out,
      prettyLoop width (⟨ind, m, format_expr (Expr.Array [])⟩ :: rest) col out
        = prettyLoop width rest (col + 2) (out ++ "[]")) ∧
    (∀ width ind (m : Mode) (rest : List Item) col out,
      prettyLoop width (⟨ind, m, format_expr (Expr.Object [])⟩ :: rest) col out
        = prettyLoop width rest (col + 2) (out ++ "\x7b\x7d")) := by
  have ha : format_expr (Expr.Array []) = .Text "[]" := by
    rw [format_expr_array]; decide
  have ho : format_expr (Expr.Object []) = .Text "\x7b\x7d" := by
    rw [format_expr_object]; decide
  have hlen2 : ("[]" : String).length = 2 := by decide
  have hlen2' : ("\x7b\x7d" : String).length = 2 := by decide
  refine ⟨fun w => ?_, fun w => ?_, fun width ind m rest col out => ?_,
    fun width ind m rest col out => ?_⟩
  · rw [ha, pretty_eq_rend]; rfl
  · rw [ho, pretty_eq_rend]; rfl
  · rw [ha, prettyLoop, hlen2]
  · rw [ho, prettyLoop, hlen2']

/-- C7: string-literal escaping. The five named characters map to their
two-character escapes; every other control character becomes `\u`
followed by exactly four hex digits of its code point; every remaining
character is copied unchanged; string literals are the escaped text
wrapped in double quotes; and a standard parser reading the escape
sequences back recovers the original string exactly. -/
theorem escape_string_correct :
    escapeChar '"' = "\\\"" ∧ escapeChar '\\' = "\\\\" ∧
    escapeChar '\n' = "\\n" ∧ escapeChar '\r' = "\\r" ∧
    escapeChar '\t' = "\\t" ∧
    (∀ c : Char, c ≠ '"' → c ≠ '\\' → c ≠ '\n' → c ≠ '\r' → c ≠ '\t' →
      isControl c = true →
      escapeChar c = "\\u" ++ hex4 c.toNat ∧ (hex4 c.toNat).length = 4 ∧
        ∀ d ∈ (hex4 c.toNat).data, hexVal d ≠ none) ∧
    (∀ c : Char, c ≠ '"' → c ≠ '\\' → c ≠ '\n' → c ≠ '\r' → c ≠ '\t' →
      isControl c = false → escapeChar c = String.singleton c) ∧
    (∀ s : String, format_literal (.Str s) =
      Doc.text ("\"" ++ escape_string s ++ "\"")) ∧
    ∀ s : String, unescapeList (escape_string s).data = some s.data := by
  refine ⟨by decide, by decide, by decide, by decide, by decide,
    ?_, ?_, fun s => rfl, unescape_escape_string⟩
  · intro c h1 h2 h3 h4 h5 h6
    refine ⟨?_, rfl, ?_⟩
    · unfold escapeChar
      rw [if_neg h1, if_neg h2, if_neg h3, if_neg h4, if_neg h5, if_pos h6]
    · intro d hd
      have hdata : (hex4 c.toNat).data =
          [Nat.digitChar (c.toNat / 4096 % 16),
           Nat.digitChar (c.toNat / 256 % 16),
           Nat.digitChar (c.toNat / 16 % 16),
           Nat.digitChar (c.toNat % 16)] := rfl
      rw [hdata] at hd
      simp only [List.mem_cons, List.not_mem_nil, or_false] at hd
      rcases hd with rfl | rfl | rfl | rfl <;>
        simp [hexVal_digitChar _ (Nat.mod_lt _ (by omega))]
  · intro c h1 h2 h3 h4 h5 h6
    unfold escapeChar
    rw [if_neg h1, if_neg h2, if_neg h3, if_neg h4, if_neg h5,
      if_neg (by simp [h6])]

theorem escape_string_correct_witness :
    (escapeChar '\x01' = "\\u" ++ hex4 '\x01'.toNat ∧
      (hex4 '\x01'.toNat).length = 4 ∧
      ∀ d ∈ (hex4 '\x01'.toNat).data, hexVal d ≠ none) ∧
    escapeChar 'x' = String.singleton 'x' ∧
    unescapeList (escape_string "a\"\\\n").data = some "a\"\\\n".data :=
  ⟨escape_string_correct.2.2.2.2.2.1 '\x01' (by decide) (by decide)
      (by decide) (by decide) (by decide) (by decide),
   escape_string_correct.2.2.2.2.2.2.1 'x' (by decide) (by decide)
      (by decide) (by decide) (by decide) (by decide),
   escape_string_correct.2.2.2.2.2.2.2.2 "a\"\\\n"⟩

/-- C8: for every well-formed expression tree and positive width, the
string the core entry point produces (rendering the Style-Rules document
with the Renderer) does not end in a newline character. -/
theorem output_never_ends_newline (e : Expr) (w : Nat) (_hw : 0 < w)
    (h : e.wf = true) :
    strTailOk (pretty w (format_expr e)) = true := by
  rw [pretty_eq_rend]
  exact rend_tailOk w (format_expr e) 0 .Flat 0 (format_expr_props e h).2.2

theorem output_never_ends_newline_witness :
    strTailOk (pretty 80 (format_expr Expr.Everything)) = true :=
  output_never_ends_newline Expr.Everything 80 (by decide)
    (by rw [Expr.wf])

/-- C9: error surface of `format_query`. On trimmed-empty input it
returns exactly the distinguished `EmptyQuery` error; when the parser
fails it returns exactly `Parse` carrying the parser's message; when the
parser succeeds it returns exactly the formatted string; and every call
lands in one of these three shapes, so an error is never accompanied by
partial output. -/
theorem format_query_error_surface
    (parse : String → Except String Expr) (query : String) (width : Nat) :
    ((rustTrim query).isEmpty = true →
      format_query parse query width = .error .EmptyQuery) ∧
    (∀ msg, (rustTrim query).isEmpty = false →
      parse (rustTrim query) = .error msg →
      format_query parse query width = .error (.Parse msg)) ∧
    (∀ tree, (rustTrim query).isEmpty = false →
      parse (rustTrim query) = .ok tree →
      format_query parse query width =
        .ok (pretty width (format_expr tree))) ∧
    (format_query parse query width = .error .EmptyQuery ∨
      (∃ msg, format_query parse query width = .error (.Parse msg)) ∨
      ∃ out, format_query parse query width = .ok out) := by
  refine ⟨?_, ?_, ?_, ?_⟩
  · intro h
    unfold format_query
    rw [if_pos h]
  · intro msg h hp
    unfold format_query
    rw [if_neg (by simp [h]), hp]
  · intro tree h hp
    unfold format_query
    rw [if_neg (by simp [h]), hp]
  · unfold format_query
    dsimp only
    split
    · exact Or.inl rfl
    · cases hp : parse (rustTrim query) with
      | error e => exact Or.inr (Or.inl ⟨e, rfl⟩)
      | ok t => exact Or.inr (Or.inr ⟨_, rfl⟩)

theorem format_query_error_surface_witness :
    format_query (fun _ => .error "boom") "  " 80 = .error .EmptyQuery ∧
    format_query (fun _ => .error "boom") "*" 80 = .error (.Parse "boom") ∧
    format_query (fun _ => .ok Expr.Everything) "*" 80 =
      .ok (pretty 80 (format_expr Expr.Everything)) :=
  ⟨(format_query_error_surface (fun _ => .error "boom") "  " 80).1
      (by decide),
   (format_query_error_surface (fun _ => .error "boom") "*" 80).2.1 "boom"
      (by decide) rfl,
   (format_query_error_surface (fun _ => .ok Expr.Everything) "*" 80).2.2.1
      Expr.Everything (by decide) rfl⟩

/-- C10: `format_query` trims whitespace before the emptiness check, so a
query of only whitespace characters yields the `EmptyQuery` error — not a
parse failure — and the result does not depend on the parser at all (the
parser is never consulted). -/
theorem whitespace_only_empty_query
    (parse : String → Except String Expr) (query : String) (width : Nat)
    (h : ∀ c ∈ query.data, c.isWhitespace = true) :
    format_query parse query width = .error .EmptyQuery ∧
    ∀ parse' : String → Except String Expr,
      format_query parse query width = format_query parse' query width := by
  have htrim : rustTrim query = "" := by
    unfold rustTrim
    rw [List.dropWhile_eq_nil_iff.mpr h]
    rfl
  have h1 : ∀ p : String → Except String Expr,
      format_query p query width = .error .EmptyQuery := by
    intro p
    unfold format_query
    rw [htrim]
    rfl
  exact ⟨h1 parse, fun p' => (h1 parse).trans (h1 p').symm⟩

theorem whitespace_only_empty_query_witness :
    format_query (fun _ => .ok Expr.Everything) " \t\n" 80 =
      .error .EmptyQuery :=
  (whitespace_only_empty_query (fun _ => .ok Expr.Everything) " \t\n" 80
    (by decide)).1
